import Mathlib

/-!
# Matrix-Math: a verification development of `MM.cpp`

The C++ source keeps a matrix as two `uint32_t` fields (`nrows`, `ncolumns`)
and a heap buffer of rows, each row a heap buffer of `double`s.  The
embedding below keeps that shape:

* the two counters are natural numbers, read as `uint32_t` values (the
  predicate `Matrix.WF` bounds them by `2^32`); every arithmetic operation the
  source performs on them is written with its wraparound (`% 2^32`, and
  `% 2^64` for the `uint64_t` limit test of `Kronecker`);
* the storage is a list of rows, each a list of elements; reading or writing a
  cell outside the storage is the outcome `Error.OutOfBounds` (in the source:
  undefined behaviour);
* the element type is a parameter `α`, so that element arithmetic is exact;
* the `for` loops are kept as loops (`forLoop`), writing one cell per step.
-/

namespace MM

variable {α : Type}

/-! ## The program -/

/-- Outcomes other than a normal return.  The source throws `std::exception()`
at every failed test and `std::bad_alloc()` when `calloc` fails; the first
three names are those of the error taxonomy, attached to the throw sites:
`InvalidDimension` for the dimension tests (and the zero test on `limit_test`,
which the source's comment describes as the test that all four dimensions are
greater than zero), `Overflow` for the two limit tests of `Kronecker`.
`OutOfBounds` is not an exception: it stands for an access outside the
allocated storage. -/
inductive Error where
  | InvalidDimension
  | Overflow
  | AllocationFailure
  | OutOfBounds
  deriving DecidableEq, Repr

deriving instance DecidableEq for Except

/-- The class `Matrix`: `nrows`, `ncolumns` and the row buffer `row`. -/
structure Matrix (α : Type) where
  nrows : Nat
  ncolumns : Nat
  row : List (List α)
  deriving DecidableEq, Repr

/-- The macro `U32MAX`, `0xFFFFFFFF`. -/
def U32MAX : Nat := 0xFFFFFFFF

/-- Multiplication of two `uint32_t` values. -/
def mul32 (a b : Nat) : Nat := (a * b) % 2 ^ 32

/-- Addition of two `uint32_t` values. -/
def add32 (a b : Nat) : Nat := (a + b) % 2 ^ 32

/-- Subtraction of two `uint32_t` values. -/
def sub32 (a b : Nat) : Nat := (a + 2 ^ 32 - b) % 2 ^ 32

/-- Multiplication of two `uint64_t` values. -/
def mul64 (a b : Nat) : Nat := (a * b) % 2 ^ 64

/-- The loop `for (i = lo; n more iterations; i++) body`, threading the state
`s` and stopping at the first failure. -/
def loop {σ : Type} (body : Nat → σ → Except Error σ) : Nat → Nat → σ → Except Error σ
  | _, 0, s => .ok s
  | i, n + 1, s =>
    match body i s with
    | .ok s' => loop body (i + 1) n s'
    | .error e => .error e

/-- The loop `for (i = lo; i < hi; i++) body`. -/
def forLoop {σ : Type} (lo hi : Nat) (body : Nat → σ → Except Error σ) (s : σ) :
    Except Error σ :=
  loop body lo (hi - lo) s

/-- The cell `row[i].column[j]`, when it is inside the storage. -/
def Matrix.get? (m : Matrix α) (i j : Nat) : Option α :=
  match m.row[i]? with
  | some r => r[j]?
  | none => none

/-- Reading `m.row[i].column[j]`. -/
def Matrix.read (m : Matrix α) (i j : Nat) : Except Error α :=
  match m.get? i j with
  | some v => .ok v
  | none => .error .OutOfBounds

/-- The assignment `m.row[i].column[j] = v`. -/
def Matrix.write (m : Matrix α) (i j : Nat) (v : α) : Except Error (Matrix α) :=
  match m.row[i]? with
  | some r =>
    if j < r.length then .ok { m with row := m.row.set i (r.set j v) }
    else .error .OutOfBounds
  | none => .error .OutOfBounds

/-- The constructor `Matrix::Matrix(irows, icolumns)`: it throws when a
dimension is zero, and otherwise allocates `irows` rows of `icolumns` cells
with `calloc`, that is, filled with zeroes.  Allocation is taken to succeed. -/
def Matrix.new [Zero α] (irows icolumns : Nat) : Except Error (MM.Matrix α) :=
  if irows = 0 ∨ icolumns = 0 then .error .InvalidDimension
  else .ok ⟨irows, icolumns, List.replicate irows (List.replicate icolumns 0)⟩

/-- The value `limit_test` of `Kronecker`, lines 73-75: the product of the
four dimensions and of `sizeof(double)`, every factor cast to `uint64_t`. -/
def limit_test (left right : Matrix α) : Nat :=
  mul64 (mul64 (mul64 (mul64 left.nrows right.nrows) left.ncolumns) right.ncolumns) 8

/-- Function `Kronecker(left, right)`, lines 65-112. -/
def Kronecker [Mul α] [Zero α] (left right : Matrix α) : Except Error (Matrix α) :=
  if limit_test left right = 0 then .error .InvalidDimension
  else if limit_test left right > 0x3FFFFFFF00000001 then .error .Overflow
  else if mul64 left.nrows right.nrows > U32MAX ∨
      mul64 left.ncolumns right.ncolumns > U32MAX then .error .Overflow
  else
    let m_end := left.nrows
    let n_end := left.ncolumns
    let p_end := right.nrows
    let q_end := right.ncolumns
    let m_step := left.nrows
    let n_step := left.ncolumns
    match Matrix.new (mul32 left.nrows right.nrows) (mul32 left.ncolumns right.ncolumns) with
    | .error e => .error e
    | .ok ret =>
      forLoop 0 m_end (fun m ret =>
        forLoop 0 n_end (fun n ret =>
          forLoop 0 p_end (fun p ret =>
            forLoop 0 q_end (fun q ret =>
              match left.read m n with
              | .error e => .error e
              | .ok a =>
                match right.read p q with
                | .error e => .error e
                | .ok b =>
                  ret.write (add32 (mul32 m m_step) p) (add32 (mul32 n n_step) q) (a * b))
              ret) ret) ret) ret

/-- Function `Hadamard(l, r)`, lines 115-133. -/
def Hadamard [Mul α] [Zero α] (l r : Matrix α) : Except Error (Matrix α) :=
  if l.nrows ≠ r.nrows ∨ l.ncolumns ≠ r.ncolumns ∨ l.nrows ≤ 0 ∨ l.ncolumns ≤ 0 then
    .error .InvalidDimension
  else
    match Matrix.new l.nrows l.ncolumns with
    | .error e => .error e
    | .ok ret =>
      forLoop 0 ret.nrows (fun i ret =>
        forLoop 0 ret.ncolumns (fun j ret =>
          match l.read i j with
          | .error e => .error e
          | .ok a =>
            match r.read i j with
            | .error e => .error e
            | .ok b => ret.write i j (a * b)) ret) ret

/-- Function `MulByScalar(scalar, m)`, lines 248-258.  The source changes `m` in
place; the matrix returned here is `m` after the call. -/
def MulByScalar [Mul α] (scalar : α) (m : Matrix α) : Except Error (Matrix α) :=
  if m.ncolumns ≤ 0 ∨ m.nrows = 0 then .error .InvalidDimension
  else
    forLoop 0 m.nrows (fun i m =>
      forLoop 0 m.ncolumns (fun j m =>
        match m.read i j with
        | .error e => .error e
        | .ok x => m.write i j (x * scalar)) m) m

/-- Function `Invert(k, m)`, lines 260-270.  The source changes `m` in place; the
matrix returned here is `m` after the call. -/
def Invert [Div α] (k : α) (m : Matrix α) : Except Error (Matrix α) :=
  if m.nrows ≤ 0 ∨ m.ncolumns ≤ 0 then .error .InvalidDimension
  else
    forLoop 0 m.nrows (fun i m =>
      forLoop 0 m.ncolumns (fun j m =>
        match m.read i j with
        | .error e => .error e
        | .ok x => m.write i j (k / x)) m) m

/-- Function `HoriCat(l, r)`, lines 136-156. -/
def HoriCat [Zero α] (l r : Matrix α) : Except Error (Matrix α) :=
  if l.nrows ≠ r.nrows ∨ l.nrows ≤ 0 ∨ l.ncolumns ≤ 0 ∨ r.nrows ≤ 0 ∨ r.ncolumns ≤ 0 then
    .error .InvalidDimension
  else
    match Matrix.new l.nrows (add32 l.ncolumns r.ncolumns) with
    | .error e => .error e
    | .ok ret =>
      forLoop 0 l.nrows (fun i ret =>
        match forLoop 0 l.ncolumns (fun run ret =>
            match l.read i run with
            | .error e => .error e
            | .ok a => ret.write i run a) ret with
        | .error e => .error e
        | .ok ret =>
          forLoop l.ncolumns (add32 l.ncolumns r.ncolumns) (fun run ret =>
            match r.read i (sub32 run l.ncolumns) with
            | .error e => .error e
            | .ok b => ret.write i run b) ret) ret

/-- Function `Mul(l, r)`, lines 160-187. -/
def Mul [Add α] [Mul α] [Zero α] (l r : Matrix α) : Except Error (Matrix α) :=
  if l.ncolumns ≠ r.nrows ∨ l.nrows ≤ 0 ∨ l.ncolumns ≤ 0 ∨ r.nrows ≤ 0 ∨ r.ncolumns ≤ 0 then
    .error .InvalidDimension
  else
    let common_length := l.ncolumns
    match Matrix.new l.nrows r.ncolumns with
    | .error e => .error e
    | .ok ret =>
      match forLoop 0 ret.nrows (fun i ret =>
          forLoop 0 ret.ncolumns (fun j ret => ret.write i j (0 : α)) ret) ret with
      | .error e => .error e
      | .ok ret =>
        forLoop 0 common_length (fun i ret =>
          forLoop 0 l.nrows (fun j ret =>
            forLoop 0 r.ncolumns (fun k ret =>
              match ret.read j k with
              | .error e => .error e
              | .ok c =>
                match l.read j i with
                | .error e => .error e
                | .ok a =>
                  match r.read i k with
                  | .error e => .error e
                  | .ok b => ret.write j k (c + a * b)) ret) ret) ret

/-- Function `Add(l, r)`, lines 189-208. -/
def Add [Add α] [Zero α] (l r : Matrix α) : Except Error (Matrix α) :=
  if l.nrows ≠ r.nrows ∨ l.ncolumns ≠ r.ncolumns ∨ l.nrows ≤ 0 ∨ r.nrows ≤ 0 ∨
      l.ncolumns ≤ 0 ∨ r.ncolumns ≤ 0 then
    .error .InvalidDimension
  else
    match Matrix.new l.nrows l.ncolumns with
    | .error e => .error e
    | .ok ret =>
      forLoop 0 l.nrows (fun i ret =>
        forLoop 0 l.ncolumns (fun j ret =>
          match l.read i j with
          | .error e => .error e
          | .ok a =>
            match r.read i j with
            | .error e => .error e
            | .ok b => ret.write i j (a + b)) ret) ret

/-- Function `Sub(l, r)`, lines 210-229. -/
def Sub [Sub α] [Zero α] (l r : Matrix α) : Except Error (Matrix α) :=
  if l.nrows ≠ r.nrows ∨ l.ncolumns ≠ r.ncolumns ∨ l.nrows ≤ 0 ∨ r.nrows ≤ 0 ∨
      l.ncolumns ≤ 0 ∨ r.ncolumns ≤ 0 then
    .error .InvalidDimension
  else
    match Matrix.new l.nrows l.ncolumns with
    | .error e => .error e
    | .ok ret =>
      forLoop 0 l.nrows (fun i ret =>
        forLoop 0 l.ncolumns (fun j ret =>
          match l.read i j with
          | .error e => .error e
          | .ok a =>
            match r.read i j with
            | .error e => .error e
            | .ok b => ret.write i j (a - b)) ret) ret

/-- Function `Transpose(m)`, lines 231-246. -/
def Transpose [Zero α] (m : Matrix α) : Except Error (Matrix α) :=
  if m.ncolumns ≤ 0 ∨ m.nrows ≤ 0 then .error .InvalidDimension
  else
    match Matrix.new m.ncolumns m.nrows with
    | .error e => .error e
    | .ok ret =>
      forLoop 0 ret.nrows (fun i ret =>
        forLoop 0 ret.ncolumns (fun j ret =>
          match m.read j i with
          | .error e => .error e
          | .ok a => ret.write i j a) ret) ret

/-! ## Definitions used in the statements -/

/-- The element at `(i, j)`, zero outside the storage. -/
def Matrix.elem [Zero α] (m : MM.Matrix α) (i j : Nat) : α := (m.get? i j).getD 0

/-- The storage of `m` has `R` rows of `C` cells each and the two counters say
so. -/
def Matrix.Shaped (m : MM.Matrix α) (R C : Nat) : Prop :=
  m.nrows = R ∧ m.ncolumns = C ∧ m.row.length = R ∧ ∀ r ∈ m.row, r.length = C

/-- The invariant of a live instance: both counters are non-zero `uint32_t`
values and the storage has `nrows` rows of `ncolumns` cells. -/
def Matrix.WF (m : MM.Matrix α) : Prop :=
  0 < m.nrows ∧ m.nrows < 2 ^ 32 ∧ 0 < m.ncolumns ∧ m.ncolumns < 2 ^ 32 ∧
    m.Shaped m.nrows m.ncolumns

instance (m : MM.Matrix α) (R C : Nat) : Decidable (m.Shaped R C) := by
  unfold Matrix.Shaped; infer_instance

instance (m : MM.Matrix α) : Decidable m.WF := by
  unfold Matrix.WF; infer_instance

/-- The matrix `[[1,2],[3,4]]` of the concrete scenario. -/
def exA : Matrix Int := ⟨2, 2, [[1, 2], [3, 4]]⟩

/-- The matrix `[[5,6],[7,8]]` of the concrete scenario. -/
def exB : Matrix Int := ⟨2, 2, [[5, 6], [7, 8]]⟩

/-- The matrix `[[1],[2],[3]]`. -/
def exCol : Matrix Int := ⟨3, 1, [[1], [2], [3]]⟩

/-- A matrix of one row of `2^32 - 1` cells. -/
def wideRow : Matrix Int := ⟨1, 4294967295, [List.replicate 4294967295 0]⟩

/-- A matrix of one cell. -/
def oneCell : Matrix Int := ⟨1, 1, [[0]]⟩

/-- The cells `(a, b)` of the result that the four loops of `Kronecker` have
passed when the counters stand at `(m, n, p, q)`, for blocks of `rr` rows and
`rc` columns: the cell `(a, b)` belongs to the step
`(a / rr, b / rc, a % rr, b % rc)`. -/
def kdone (rr rc m n p q a b : Nat) : Prop :=
  a / rr < m ∨ (a / rr = m ∧ (b / rc < n ∨ (b / rc = n ∧
    (a % rr < p ∨ (a % rr = p ∧ b % rc < q)))))

/-- The invariant of the four loops: the result keeps its shape and every
cell passed so far holds the product that belongs there. -/
def KInv [MulZeroClass α] (A B : Matrix α) (m n p q : Nat) (t : Matrix α) : Prop :=
  t.Shaped (A.nrows * B.nrows) (A.ncolumns * B.ncolumns) ∧
    ∀ a b, a < A.nrows * B.nrows → b < A.ncolumns * B.ncolumns →
      kdone B.nrows B.ncolumns m n p q a b →
      t.get? a b = some (A.elem (a / B.nrows) (b / B.ncolumns) *
        B.elem (a % B.nrows) (b % B.ncolumns))

/-- The operands pass the three tests of `Kronecker`, lines 80-87. -/
def KroneckerPasses (left right : Matrix α) : Prop :=
  limit_test left right ≠ 0 ∧ limit_test left right ≤ 0x3FFFFFFF00000001 ∧
    mul64 left.nrows right.nrows ≤ U32MAX ∧ mul64 left.ncolumns right.ncolumns ≤ U32MAX

instance (left right : Matrix α) : Decidable (KroneckerPasses left right) := by
  unfold KroneckerPasses; infer_instance

/-- The matrix `[[1, 2]]`. -/
def exRow2 : Matrix Int := ⟨1, 2, [[1, 2]]⟩

/-- The matrix `[[3, 4, 5]]`. -/
def exRow3 : Matrix Int := ⟨1, 3, [[3, 4, 5]]⟩

/-- The matrix `[[1], [2]]`. -/
def exCol2 : Matrix Int := ⟨2, 1, [[1], [2]]⟩

/-- The matrix `[[3], [4], [5]]`. -/
def exCol3 : Matrix Int := ⟨3, 1, [[3], [4], [5]]⟩

/-- A matrix of `40000` rows and `40000` columns. -/
def big : Matrix Int := ⟨40000, 40000, List.replicate 40000 (List.replicate 40000 0)⟩

/-- The sum of `l[a][x] * r[x][b]` over `x < n`. -/
def dot [NonUnitalNonAssocSemiring α] (l r : Matrix α) (n a b : Nat) : α :=
  Finset.sum (Finset.range n) (fun x => l.elem a x * r.elem x b)

/-- The invariant of the accumulation loops of `Mul` when the counters stand
at `(i, j, k)`: the cells before `(j, k)` hold the sum of `i + 1` products,
the others the sum of `i` products. -/
def MInv [NonUnitalNonAssocSemiring α] (l r : Matrix α) (i j k : Nat) (t : Matrix α) : Prop :=
  t.Shaped l.nrows r.ncolumns ∧
    ∀ a b, a < l.nrows → b < r.ncolumns →
      t.get? a b = some (if a < j ∨ (a = j ∧ b < k) then dot l r (i + 1) a b else dot l r i a b)

/-- The invariant of the data model: both counters are positive, the storage
has exactly `nrows` rows and every row has exactly `ncolumns` elements. -/
def Matrix.Invariant (m : Matrix α) : Prop :=
  0 < m.nrows ∧ 0 < m.ncolumns ∧ m.row.length = m.nrows ∧ ∀ r ∈ m.row, r.length = m.ncolumns

instance (m : Matrix α) : Decidable m.Invariant := by
  unfold Matrix.Invariant; infer_instance

/-- The matrix `[[1,2],[3,4]]` of the concrete scenario, over the rationals. -/
def exQ : Matrix Rat := ⟨2, 2, [[1, 2], [3, 4]]⟩

/-- A matrix of `65536` rows and `65536` columns. -/
def wide64k : Matrix Int := ⟨65536, 65536, List.replicate 65536 (List.replicate 65536 0)⟩

/-- A matrix of `30000` rows and `30000` columns. -/
def mid30k : Matrix Int := ⟨30000, 30000, List.replicate 30000 (List.replicate 30000 0)⟩

/-- The matrix `l` of the demonstration driver, `l[i][j] = i + 1`. -/
def demoL : Matrix Int := ⟨2, 2, [[1, 1], [2, 2]]⟩

/-- The matrix `r` of the demonstration driver, `r[i][j] = j + 5`. -/
def demoR : Matrix Int := ⟨2, 2, [[5, 6], [5, 6]]⟩

/-! ## The concrete scenario -/

theorem scenario_Add : Add exA exB = .ok ⟨2, 2, [[6, 8], [10, 12]]⟩ := by decide

theorem scenario_Sub : Sub exA exB = .ok ⟨2, 2, [[-4, -4], [-4, -4]]⟩ := by decide

theorem scenario_Hadamard : Hadamard exA exB = .ok ⟨2, 2, [[5, 12], [21, 32]]⟩ := by decide

theorem scenario_Mul : Mul exA exB = .ok ⟨2, 2, [[19, 22], [43, 50]]⟩ := by decide

theorem scenario_Transpose : Transpose exA = .ok ⟨2, 2, [[1, 3], [2, 4]]⟩ := by decide

theorem scenario_HoriCat : HoriCat exA exB = .ok ⟨2, 4, [[1, 2, 5, 6], [3, 4, 7, 8]]⟩ := by decide

theorem demo_Kronecker : Kronecker (⟨2, 2, [[1, 1], [2, 2]]⟩ : Matrix Int) ⟨2, 2, [[5, 6], [5, 6]]⟩
    = .ok ⟨4, 4, [[5, 6, 5, 6], [5, 6, 5, 6], [10, 12, 10, 12], [10, 12, 10, 12]]⟩ := by
  decide

theorem scenario_Mul_row_col : Mul exRow3 exCol3 = .ok ⟨1, 1, [[50]]⟩ := by decide

/-! ## Loops -/

/-- A loop whose body keeps an invariant, and never fails under it, runs to
the end and establishes the invariant at the final counter. -/
theorem loop_inv {σ : Type} (Inv : Nat → σ → Prop) (body : Nat → σ → Except Error σ) :
    ∀ (n lo : Nat) (s : σ), Inv lo s →
      (∀ i t, lo ≤ i → i < lo + n → Inv i t → ∃ t', body i t = .ok t' ∧ Inv (i + 1) t') →
      ∃ s', loop body lo n s = .ok s' ∧ Inv (lo + n) s' := by
  intro n
  induction n with
  | zero => intro lo s h0 _; exact ⟨s, rfl, h0⟩
  | succ n ih =>
    intro lo s h0 hstep
    obtain ⟨t, ht, hInv⟩ := hstep lo s (Nat.le_refl _) (by omega) h0
    obtain ⟨s', hs', hfin⟩ := ih (lo + 1) t hInv
      (fun i u h1 h2 hu => hstep i u (by omega) (by omega) hu)
    refine ⟨s', ?_, ?_⟩
    · simp only [loop, ht]; exact hs'
    · have : lo + (n + 1) = lo + 1 + n := by omega
      rw [this]; exact hfin

/-- The invariant rule for `for (i = 0; i < hi; i++)`. -/
theorem forLoop_inv {σ : Type} (Inv : Nat → σ → Prop) (body : Nat → σ → Except Error σ)
    (hi : Nat) (s : σ) (h0 : Inv 0 s)
    (hstep : ∀ i t, i < hi → Inv i t → ∃ t', body i t = .ok t' ∧ Inv (i + 1) t') :
    ∃ s', forLoop 0 hi body s = .ok s' ∧ Inv hi s' := by
  have h := loop_inv Inv body hi 0 s h0 (fun i t _ h2 hI => hstep i t (by omega) hI)
  simpa [forLoop] using h

/-- The invariant rule with a consequence of the final invariant as the
postcondition. -/
theorem forLoop_inv_post {σ : Type} (Inv : Nat → σ → Prop) (Q : σ → Prop)
    (body : Nat → σ → Except Error σ) (hi : Nat) (s : σ) (h0 : Inv 0 s)
    (hstep : ∀ i t, i < hi → Inv i t → ∃ t', body i t = .ok t' ∧ Inv (i + 1) t')
    (hpost : ∀ s', Inv hi s' → Q s') :
    ∃ s', forLoop 0 hi body s = .ok s' ∧ Q s' := by
  obtain ⟨s', h1, h2⟩ := forLoop_inv Inv body hi s h0 hstep
  exact ⟨s', h1, hpost s' h2⟩

/-- The invariant rule for `for (i = lo; i < hi; i++)` with `lo ≤ hi`. -/
theorem forLoop_inv_from {σ : Type} (Inv : Nat → σ → Prop) (body : Nat → σ → Except Error σ)
    (lo hi : Nat) (hlo : lo ≤ hi) (s : σ) (h0 : Inv lo s)
    (hstep : ∀ i t, lo ≤ i → i < hi → Inv i t → ∃ t', body i t = .ok t' ∧ Inv (i + 1) t') :
    ∃ s', forLoop lo hi body s = .ok s' ∧ Inv hi s' := by
  have h := loop_inv Inv body (hi - lo) lo s h0
    (fun i t h1 h2 hI => hstep i t h1 (by omega) hI)
  have e : lo + (hi - lo) = hi := by omega
  rw [e] at h
  exact h

/-- A property that every successful step of the body keeps is kept by the
loop when it returns. -/
theorem loop_preserves {σ : Type} (P : σ → Prop) (body : Nat → σ → Except Error σ)
    (hbody : ∀ i t t', P t → body i t = .ok t' → P t') :
    ∀ (n lo : Nat) (s s' : σ), P s → loop body lo n s = .ok s' → P s' := by
  intro n
  induction n with
  | zero =>
    intro lo s s' hP h
    simp only [loop, Except.ok.injEq] at h
    exact h ▸ hP
  | succ n ih =>
    intro lo s s' hP h
    simp only [loop] at h
    cases hb : body lo s with
    | error e => rw [hb] at h; cases h
    | ok t =>
      rw [hb] at h
      exact ih (lo + 1) t s' (hbody lo s t hP hb) h

/-- The same for `forLoop`. -/
theorem forLoop_preserves {σ : Type} (P : σ → Prop) (body : Nat → σ → Except Error σ)
    (hbody : ∀ i t t', P t → body i t = .ok t' → P t')
    (lo hi : Nat) (s s' : σ) (hP : P s) (h : forLoop lo hi body s = .ok s') : P s' :=
  loop_preserves P body hbody (hi - lo) lo s s' hP h

/-! ## Storage -/

theorem Matrix.get?_of_shaped {m : MM.Matrix α} {R C : Nat} (h : m.Shaped R C) {a b : Nat}
    (ha : a < R) (hb : b < C) : ∃ v, m.get? a b = some v := by
  obtain ⟨_, _, hlen, hrows⟩ := h
  have ha' : a < m.row.length := by omega
  have hr : (m.row[a]).length = C := hrows _ (List.getElem_mem ha')
  refine ⟨(m.row[a])[b], ?_⟩
  simp only [get?, List.getElem?_eq_getElem ha']
  exact List.getElem?_eq_getElem (by omega)

theorem Matrix.get?_eq_elem [Zero α] {m : MM.Matrix α} {R C : Nat} (h : m.Shaped R C) {a b : Nat}
    (ha : a < R) (hb : b < C) : m.get? a b = some (m.elem a b) := by
  obtain ⟨v, hv⟩ := get?_of_shaped h ha hb
  simp [elem, hv]

theorem Matrix.read_eq_elem [Zero α] {m : MM.Matrix α} {R C : Nat} (h : m.Shaped R C) {a b : Nat}
    (ha : a < R) (hb : b < C) : m.read a b = .ok (m.elem a b) := by
  simp [read, get?_eq_elem h ha hb]

theorem Matrix.write_ok {m : MM.Matrix α} {R C : Nat} (h : m.Shaped R C) {i j : Nat}
    (hi : i < R) (hj : j < C) (v : α) :
    ∃ m', m.write i j v = .ok m' ∧ m'.Shaped R C ∧
      ∀ a b, m'.get? a b = if a = i ∧ b = j then some v else m.get? a b := by
  obtain ⟨h1, h2, hlen, hrows⟩ := h
  have hi' : i < m.row.length := by omega
  have hr : (m.row[i]).length = C := hrows _ (List.getElem_mem hi')
  refine ⟨{ m with row := m.row.set i ((m.row[i]).set j v) }, ?_, ⟨h1, h2, ?_, ?_⟩, ?_⟩
  · simp only [write, List.getElem?_eq_getElem hi']
    rw [if_pos (by omega)]
  · simpa using hlen
  · intro r hr'
    rcases List.mem_or_eq_of_mem_set hr' with hmem | heq
    · exact hrows r hmem
    · rw [heq, List.length_set]; exact hr
  · intro a b
    by_cases hai : a = i
    · subst hai
      by_cases hbj : b = j
      · subst hbj
        simp [get?, hi', hr, hj]
      · have hbj' : ¬ (a = a ∧ b = j) := fun h => hbj h.2
        rw [if_neg hbj']
        simp [get?, hi', List.getElem?_set_ne (Ne.symm hbj)]
    · have hai' : ¬ (a = i ∧ b = j) := fun h => hai h.1
      rw [if_neg hai']
      simp [get?, List.getElem?_set_ne (Ne.symm hai)]

theorem Matrix.new_ok (α : Type) [Zero α] {R C : Nat} (hR : 0 < R) (hC : 0 < C) :
    ∃ z : MM.Matrix α, Matrix.new R C = .ok z ∧ z.Shaped R C ∧
      ∀ a b, a < R → b < C → z.get? a b = some 0 := by
  refine ⟨⟨R, C, List.replicate R (List.replicate C 0)⟩, ?_, ⟨rfl, rfl, by simp, ?_⟩, ?_⟩
  · have : ¬ (R = 0 ∨ C = 0) := by omega
    simp [Matrix.new, this]
  · intro r hr
    rw [List.eq_of_mem_replicate hr]; simp
  · intro a b ha hb
    simp [get?, List.getElem?_replicate, ha, hb]

theorem Matrix.ext_of_shaped {m m' : MM.Matrix α} {R C : Nat} (h : m.Shaped R C) (h' : m'.Shaped R C)
    (hget : ∀ a b, a < R → b < C → m.get? a b = m'.get? a b) : m = m' := by
  obtain ⟨h1, h2, hlen, hrows⟩ := h
  obtain ⟨h1', h2', hlen', hrows'⟩ := h'
  cases m with
  | mk nr nc rows =>
    cases m' with
    | mk nr' nc' rows' =>
      simp only at h1 h2 hlen hrows h1' h2' hlen' hrows'
      subst h1 h2 h1' h2'
      congr 1
      apply List.ext_getElem (by omega)
      intro a ha ha'
      have hra := hrows _ (List.getElem_mem ha)
      have hra' := hrows' _ (List.getElem_mem ha')
      apply List.ext_getElem (by omega)
      intro b hb hb'
      have := hget a b (by omega) (by omega)
      simp only [get?, List.getElem?_eq_getElem ha, List.getElem?_eq_getElem ha',
        List.getElem?_eq_getElem hb, List.getElem?_eq_getElem hb'] at this
      exact Option.some.inj this

/-! ## Two nested loops that fill a matrix cell by cell -/

/-- Two nested loops over the rows and the columns of an `R × C` matrix whose
body assigns `g i j` to the cell `(i, j)` run to the end and leave `g a b` in
every cell `(a, b)`. -/
theorem fill2 (R C : Nat) (g : Nat → Nat → α) (cols : Matrix α → Nat)
    (body : Nat → Nat → Matrix α → Except Error (Matrix α))
    (hcols : ∀ t, t.Shaped R C → cols t = C)
    (hbody : ∀ i j t, i < R → j < C → t.Shaped R C → body i j t = t.write i j (g i j))
    (s : Matrix α) (hs : s.Shaped R C) :
    ∃ s', forLoop 0 R (fun i t => forLoop 0 (cols t) (fun j t => body i j t) t) s = .ok s' ∧
      s'.Shaped R C ∧ ∀ a b, a < R → b < C → s'.get? a b = some (g a b) := by
  obtain ⟨s', hrun, hsh, hval⟩ := forLoop_inv
    (fun i t => t.Shaped R C ∧ ∀ a b, a < i → b < C → t.get? a b = some (g a b))
    (fun i t => forLoop 0 (cols t) (fun j t => body i j t) t) R s
    ⟨hs, fun a b ha _ => absurd ha (Nat.not_lt_zero a)⟩
    (by
      intro i t hi ⟨hsh, hdone⟩
      show ∃ t', forLoop 0 (cols t) (fun j t => body i j t) t = .ok t' ∧
        (t'.Shaped R C ∧ ∀ a b, a < i + 1 → b < C → t'.get? a b = some (g a b))
      rw [hcols t hsh]
      obtain ⟨t', hrun, hsh', hold, hnew⟩ := forLoop_inv
        (fun j u => u.Shaped R C ∧ (∀ a b, a < i → b < C → u.get? a b = some (g a b)) ∧
          ∀ b, b < j → u.get? i b = some (g i b))
        (fun j u => body i j u) C t
        ⟨hsh, hdone, fun b hb => absurd hb (Nat.not_lt_zero b)⟩
        (by
          intro j u hj ⟨hush, huold, hunew⟩
          obtain ⟨u', hw, hsh', hget⟩ := Matrix.write_ok hush hi hj (g i j)
          refine ⟨u', (hbody i j u hi hj hush).trans hw, hsh', ?_, ?_⟩
          · intro a b ha hb
            rw [hget a b, if_neg (by omega)]
            exact huold a b ha hb
          · intro b hb
            rw [hget i b]
            by_cases hbj : b = j
            · subst hbj; simp
            · rw [if_neg (by omega)]
              exact hunew b (by omega))
      refine ⟨t', hrun, hsh', ?_⟩
      intro a b ha hb
      by_cases hai : a = i
      · subst hai; exact hnew b hb
      · exact hold a b (by omega) hb)
  exact ⟨s', hrun, hsh, hval⟩

/-! ## Element-wise operations and the transpose -/

theorem Add_spec [AddGroup α] (l r : Matrix α) (hl : l.WF) (hr : r.WF)
    (hrows : l.nrows = r.nrows) (hcols : l.ncolumns = r.ncolumns) :
    ∃ s, Add l r = .ok s ∧ s.Shaped l.nrows l.ncolumns ∧
      ∀ a b, a < l.nrows → b < l.ncolumns → s.get? a b = some (l.elem a b + r.elem a b) := by
  obtain ⟨hl1, _, hl2, _, hlsh⟩ := hl
  obtain ⟨hr1, _, hr2, _, hrsh⟩ := hr
  obtain ⟨z, hz, hzsh, _⟩ := Matrix.new_ok α hl1 hl2
  have hguard : ¬ (l.nrows ≠ r.nrows ∨ l.ncolumns ≠ r.ncolumns ∨ l.nrows ≤ 0 ∨ r.nrows ≤ 0 ∨
      l.ncolumns ≤ 0 ∨ r.ncolumns ≤ 0) := by omega
  simp only [Add, if_neg hguard, hz]
  refine fill2 l.nrows l.ncolumns (fun a b => l.elem a b + r.elem a b) (fun _ => l.ncolumns) _
    (fun _ _ => rfl) ?_ z hzsh
  intro i j t hi hj _
  simp only [Matrix.read_eq_elem hlsh hi hj,
    Matrix.read_eq_elem hrsh (hrows ▸ hi) (hcols ▸ hj)]

theorem Sub_spec [AddGroup α] (l r : Matrix α) (hl : l.WF) (hr : r.WF)
    (hrows : l.nrows = r.nrows) (hcols : l.ncolumns = r.ncolumns) :
    ∃ s, Sub l r = .ok s ∧ s.Shaped l.nrows l.ncolumns ∧
      ∀ a b, a < l.nrows → b < l.ncolumns → s.get? a b = some (l.elem a b - r.elem a b) := by
  obtain ⟨hl1, _, hl2, _, hlsh⟩ := hl
  obtain ⟨hr1, _, hr2, _, hrsh⟩ := hr
  obtain ⟨z, hz, hzsh, _⟩ := Matrix.new_ok α hl1 hl2
  have hguard : ¬ (l.nrows ≠ r.nrows ∨ l.ncolumns ≠ r.ncolumns ∨ l.nrows ≤ 0 ∨ r.nrows ≤ 0 ∨
      l.ncolumns ≤ 0 ∨ r.ncolumns ≤ 0) := by omega
  simp only [Sub, if_neg hguard, hz]
  refine fill2 l.nrows l.ncolumns (fun a b => l.elem a b - r.elem a b) (fun _ => l.ncolumns) _
    (fun _ _ => rfl) ?_ z hzsh
  intro i j t hi hj _
  simp only [Matrix.read_eq_elem hlsh hi hj,
    Matrix.read_eq_elem hrsh (hrows ▸ hi) (hcols ▸ hj)]

theorem Transpose_spec [Zero α] (m : Matrix α) (hm : m.WF) :
    ∃ s, Transpose m = .ok s ∧ s.Shaped m.ncolumns m.nrows ∧
      ∀ a b, a < m.ncolumns → b < m.nrows → s.get? a b = some (m.elem b a) := by
  obtain ⟨hm1, _, hm2, _, hmsh⟩ := hm
  obtain ⟨z, hz, hzsh, _⟩ := Matrix.new_ok α hm2 hm1
  have hguard : ¬ (m.ncolumns ≤ 0 ∨ m.nrows ≤ 0) := by omega
  simp only [Transpose, if_neg hguard, hz, hzsh.1]
  refine fill2 m.ncolumns m.nrows (fun a b => m.elem b a) (fun t => t.ncolumns) _
    (fun t ht => ht.2.1) ?_ z hzsh
  intro i j t hi hj _
  simp only [Matrix.read_eq_elem hmsh hj hi]

theorem Matrix.WF_of_shaped {s : Matrix α} {R C : Nat} (h : s.Shaped R C) (hR : 0 < R)
    (hR' : R < 2 ^ 32) (hC : 0 < C) (hC' : C < 2 ^ 32) : s.WF := by
  obtain ⟨h1, h2, h3, h4⟩ := h
  refine ⟨by omega, by omega, by omega, by omega, ?_⟩
  rw [h1, h2]
  exact ⟨h1, h2, h3, h4⟩

theorem Matrix.elem_of_get? [Zero α] {s : Matrix α} {a b : Nat} {v : α}
    (h : s.get? a b = some v) : s.elem a b = v := by
  simp [Matrix.elem, h]

/-- C8: for matrices `A`, `B` of equal shape, `Add(A, B)` returns a matrix `S`
and `Sub(S, B)` returns `A` itself: same counters, same storage, element for
element (elements in an additive group, so that arithmetic is exact). -/
theorem Sub_Add_cancel [AddGroup α] (A B : Matrix α) (hA : A.WF) (hB : B.WF)
    (hrows : A.nrows = B.nrows) (hcols : A.ncolumns = B.ncolumns) :
    ∃ S, Add A B = .ok S ∧ Sub S B = .ok A := by
  obtain ⟨S, hS, hSsh, hSval⟩ := Add_spec A B hA hB hrows hcols
  have hSwf : S.WF := Matrix.WF_of_shaped hSsh hA.1 hA.2.1 hA.2.2.1 hA.2.2.2.1
  obtain ⟨D, hD, hDsh, hDval⟩ := Sub_spec S B hSwf hB (hSsh.1.trans hrows) (hSsh.2.1.trans hcols)
  rw [hSsh.1, hSsh.2.1] at hDsh hDval
  refine ⟨S, hS, ?_⟩
  rw [hD]
  congr 1
  apply Matrix.ext_of_shaped hDsh hA.2.2.2.2
  intro a b ha hb
  rw [hDval a b ha hb, Matrix.elem_of_get? (hSval a b ha hb), add_sub_cancel_right,
    Matrix.get?_eq_elem hA.2.2.2.2 ha hb]

/-- C8 at `A = [[1,2],[3,4]]`, `B = [[5,6],[7,8]]`. -/
theorem Sub_Add_cancel_witness :
    exA.WF ∧ exB.WF ∧ ∃ S, Add exA exB = .ok S ∧ Sub S exB = .ok exA :=
  ⟨by decide, by decide, Sub_Add_cancel exA exB (by decide) (by decide) rfl rfl⟩

/-- C10: for a matrix `M` with non-zero dimensions, `Transpose(M)` returns a
matrix with `M.ncolumns` rows and `M.nrows` columns (counters and storage)
whose cell `(i, j)` holds the element of `M` at `(j, i)`, for every
`i < M.ncolumns` and `j < M.nrows`. -/
theorem Transpose_shape_elem [Zero α] (M : Matrix α) (hM : M.WF) :
    ∃ T, Transpose M = .ok T ∧ T.nrows = M.ncolumns ∧ T.ncolumns = M.nrows ∧
      T.Shaped M.ncolumns M.nrows ∧
      ∀ i j, i < M.ncolumns → j < M.nrows →
        T.get? i j = M.get? j i ∧ T.get? i j = some (M.elem j i) := by
  obtain ⟨T, hT, hTsh, hTval⟩ := Transpose_spec M hM
  refine ⟨T, hT, hTsh.1, hTsh.2.1, hTsh, ?_⟩
  intro i j hi hj
  rw [hTval i j hi hj, Matrix.get?_eq_elem hM.2.2.2.2 hj hi]
  exact ⟨rfl, rfl⟩

/-- C10 at `M = [[3, 4, 5]]`. -/
theorem Transpose_shape_elem_witness :
    exRow3.WF ∧ ∃ T, Transpose exRow3 = .ok T ∧ T.nrows = exRow3.ncolumns ∧
      T.ncolumns = exRow3.nrows ∧ T.Shaped exRow3.ncolumns exRow3.nrows ∧
      ∀ i j, i < exRow3.ncolumns → j < exRow3.nrows →
        T.get? i j = exRow3.get? j i ∧ T.get? i j = some (exRow3.elem j i) :=
  ⟨by decide, Transpose_shape_elem exRow3 (by decide)⟩

/-- C9: for a matrix `A` with non-zero dimensions, `Transpose(A)` returns a
matrix `T` and `Transpose(T)` returns `A` itself: same row count, same column
count, same element at every position. -/
theorem Transpose_Transpose [Zero α] (A : Matrix α) (hA : A.WF) :
    ∃ T, Transpose A = .ok T ∧ Transpose T = .ok A := by
  obtain ⟨T, hT, hTsh, hTval⟩ := Transpose_spec A hA
  have hTwf : T.WF := Matrix.WF_of_shaped hTsh hA.2.2.1 hA.2.2.2.1 hA.1 hA.2.1
  obtain ⟨U, hU, hUsh, hUval⟩ := Transpose_spec T hTwf
  rw [hTsh.1, hTsh.2.1] at hUsh hUval
  refine ⟨T, hT, ?_⟩
  rw [hU]
  congr 1
  apply Matrix.ext_of_shaped hUsh hA.2.2.2.2
  intro a b ha hb
  rw [hUval a b ha hb, Matrix.elem_of_get? (hTval b a hb ha),
    Matrix.get?_eq_elem hA.2.2.2.2 ha hb]

/-- C9 at `A = [[3], [4], [5]]`. -/
theorem Transpose_Transpose_witness :
    exCol3.WF ∧ ∃ T, Transpose exCol3 = .ok T ∧ Transpose T = .ok exCol3 :=
  ⟨by decide, Transpose_Transpose exCol3 (by decide)⟩

/-! ## Rejection of mismatched shapes -/

/-- C6: `Hadamard`, `Add` and `Sub` return `InvalidDimension` (and so no
matrix) when the operands differ in row count or in column count; `HoriCat`
does when the row counts differ; `Mul` does when `l.ncolumns ≠ r.nrows`. -/
theorem mismatch_rejected [Ring α] (l r : Matrix α) :
    ((l.nrows ≠ r.nrows ∨ l.ncolumns ≠ r.ncolumns) →
      Hadamard l r = .error .InvalidDimension ∧ Add l r = .error .InvalidDimension ∧
        Sub l r = .error .InvalidDimension) ∧
    (l.nrows ≠ r.nrows → HoriCat l r = .error .InvalidDimension) ∧
    (l.ncolumns ≠ r.nrows → Mul l r = .error .InvalidDimension) := by
  refine ⟨fun h => ⟨?_, ?_, ?_⟩, fun h => ?_, fun h => ?_⟩
  · have hg : l.nrows ≠ r.nrows ∨ l.ncolumns ≠ r.ncolumns ∨ l.nrows ≤ 0 ∨ l.ncolumns ≤ 0 := by
      omega
    simp only [Hadamard, if_pos hg]
  · have hg : l.nrows ≠ r.nrows ∨ l.ncolumns ≠ r.ncolumns ∨ l.nrows ≤ 0 ∨ r.nrows ≤ 0 ∨
        l.ncolumns ≤ 0 ∨ r.ncolumns ≤ 0 := by omega
    simp only [Add, if_pos hg]
  · have hg : l.nrows ≠ r.nrows ∨ l.ncolumns ≠ r.ncolumns ∨ l.nrows ≤ 0 ∨ r.nrows ≤ 0 ∨
        l.ncolumns ≤ 0 ∨ r.ncolumns ≤ 0 := by omega
    simp only [Sub, if_pos hg]
  · have hg : l.nrows ≠ r.nrows ∨ l.nrows ≤ 0 ∨ l.ncolumns ≤ 0 ∨ r.nrows ≤ 0 ∨
        r.ncolumns ≤ 0 := Or.inl h
    simp only [HoriCat, if_pos hg]
  · have hg : l.ncolumns ≠ r.nrows ∨ l.nrows ≤ 0 ∨ l.ncolumns ≤ 0 ∨ r.nrows ≤ 0 ∨
        r.ncolumns ≤ 0 := Or.inl h
    simp only [Mul, if_pos hg]

/-- C6 at `l = [[1,2],[3,4]]`, `r = [[1],[2],[3]]`. -/
theorem mismatch_rejected_witness :
    (exA.nrows ≠ exCol.nrows ∨ exA.ncolumns ≠ exCol.ncolumns) ∧ exA.nrows ≠ exCol.nrows ∧
      exA.ncolumns ≠ exCol.nrows ∧
      Hadamard exA exCol = .error .InvalidDimension ∧ Add exA exCol = .error .InvalidDimension ∧
      Sub exA exCol = .error .InvalidDimension ∧ HoriCat exA exCol = .error .InvalidDimension ∧
      Mul exA exCol = .error .InvalidDimension :=
  have h := mismatch_rejected exA exCol
  ⟨by decide, by decide, by decide, (h.1 (by decide)).1, (h.1 (by decide)).2.1,
    (h.1 (by decide)).2.2, h.2.1 (by decide), h.2.2 (by decide)⟩

/-! ## Horizontal concatenation -/

theorem add32_eq {a b : Nat} (h : a + b < 2 ^ 32) : add32 a b = a + b :=
  Nat.mod_eq_of_lt h

theorem sub32_eq {a b : Nat} (hb : b ≤ a) (ha : a < 2 ^ 32) : sub32 a b = a - b := by
  unfold sub32
  omega

theorem HoriCat_spec [Zero α] (A B : Matrix α) (hA : A.WF) (hB : B.WF)
    (hrows : A.nrows = B.nrows) (hsum : A.ncolumns + B.ncolumns < 2 ^ 32) :
    ∃ H, HoriCat A B = .ok H ∧ H.Shaped A.nrows (A.ncolumns + B.ncolumns) ∧
      ∀ i, i < A.nrows →
        (∀ c, c < A.ncolumns → H.get? i c = some (A.elem i c)) ∧
        (∀ c, A.ncolumns ≤ c → c < A.ncolumns + B.ncolumns →
          H.get? i c = some (B.elem i (c - A.ncolumns))) := by
  obtain ⟨hA1, _, hA2, _, hAsh⟩ := hA
  obtain ⟨hB1, _, hB2, _, hBsh⟩ := hB
  obtain ⟨z, hz, hzsh, _⟩ := Matrix.new_ok α hA1
    (show 0 < A.ncolumns + B.ncolumns by omega)
  have hguard : ¬ (A.nrows ≠ B.nrows ∨ A.nrows ≤ 0 ∨ A.ncolumns ≤ 0 ∨ B.nrows ≤ 0 ∨
      B.ncolumns ≤ 0) := by omega
  simp only [HoriCat, if_neg hguard, add32_eq hsum, hz]
  -- the rows filled so far
  let Done : Nat → Matrix α → Prop := fun i t =>
    ∀ a, a < i →
      (∀ c, c < A.ncolumns → t.get? a c = some (A.elem a c)) ∧
      (∀ c, A.ncolumns ≤ c → c < A.ncolumns + B.ncolumns →
        t.get? a c = some (B.elem a (c - A.ncolumns)))
  refine forLoop_inv (fun i t => t.Shaped A.nrows (A.ncolumns + B.ncolumns) ∧ Done i t) _
    A.nrows z ⟨hzsh, fun a ha => absurd ha (Nat.not_lt_zero a)⟩ ?_
  intro i t hi ⟨htsh, htdone⟩
  -- the copy of the row of `A`
  obtain ⟨t1, hrun1, ht1sh, ht1done, ht1left⟩ := forLoop_inv
    (fun run u => u.Shaped A.nrows (A.ncolumns + B.ncolumns) ∧ Done i u ∧
      ∀ c, c < run → u.get? i c = some (A.elem i c))
    (fun run ret =>
      match A.read i run with
      | .error e => .error e
      | .ok a => ret.write i run a) A.ncolumns t
    ⟨htsh, htdone, fun c hc => absurd hc (Nat.not_lt_zero c)⟩
    (by
      intro run u hrun ⟨hush, hudone, huleft⟩
      obtain ⟨u', hw, hsh', hget⟩ := Matrix.write_ok hush hi
        (show run < A.ncolumns + B.ncolumns by omega) (A.elem i run)
      refine ⟨u', ?_, hsh', ?_, ?_⟩
      · simp only [Matrix.read_eq_elem hAsh hi hrun]; exact hw
      · intro a ha
        refine ⟨fun c hc => ?_, fun c hc1 hc2 => ?_⟩
        · rw [hget a c, if_neg (by omega)]; exact (hudone a ha).1 c hc
        · rw [hget a c, if_neg (by omega)]; exact (hudone a ha).2 c hc1 hc2
      · intro c hc
        rw [hget i c]
        by_cases hcr : c = run
        · subst hcr; simp
        · rw [if_neg (by omega)]; exact huleft c (by omega))
  -- the copy of the row of `B`
  obtain ⟨t2, hrun2, ht2sh, ht2done, ht2left, ht2right⟩ := forLoop_inv_from
    (fun run u => u.Shaped A.nrows (A.ncolumns + B.ncolumns) ∧ Done i u ∧
      (∀ c, c < A.ncolumns → u.get? i c = some (A.elem i c)) ∧
      ∀ c, A.ncolumns ≤ c → c < run → u.get? i c = some (B.elem i (c - A.ncolumns)))
    (fun run ret =>
      match B.read i (sub32 run A.ncolumns) with
      | .error e => .error e
      | .ok b => ret.write i run b) A.ncolumns (A.ncolumns + B.ncolumns) (by omega) t1
    ⟨ht1sh, ht1done, ht1left, fun c hc1 hc2 => absurd hc2 (by omega)⟩
    (by
      intro run u hrun1 hrun2 ⟨hush, hudone, huleft, huright⟩
      obtain ⟨u', hw, hsh', hget⟩ := Matrix.write_ok hush hi hrun2
        (B.elem i (run - A.ncolumns))
      refine ⟨u', ?_, hsh', ?_, ?_, ?_⟩
      · simp only [sub32_eq hrun1 (show run < 2 ^ 32 by omega),
          Matrix.read_eq_elem hBsh (show i < B.nrows by omega)
            (show run - A.ncolumns < B.ncolumns by omega)]
        exact hw
      · intro a ha
        refine ⟨fun c hc => ?_, fun c hc1 hc2 => ?_⟩
        · rw [hget a c, if_neg (by omega)]; exact (hudone a ha).1 c hc
        · rw [hget a c, if_neg (by omega)]; exact (hudone a ha).2 c hc1 hc2
      · intro c hc
        rw [hget i c, if_neg (by omega)]; exact huleft c hc
      · intro c hc1 hc2
        rw [hget i c]
        by_cases hcr : c = run
        · subst hcr; simp
        · rw [if_neg (by omega)]; exact huright c hc1 (by omega))
  refine ⟨t2, ?_, ht2sh, ?_⟩
  · simp only [hrun1]; exact hrun2
  · intro a ha
    by_cases hai : a = i
    · subst hai; exact ⟨ht2left, ht2right⟩
    · exact ht2done a (by omega)

/-- C7, as stated, fails: both operands are live matrices with one row, and
the 32-bit sum of their column counts, `4294967295 + 1`, is `0`, so the
constructor of the result throws and `HoriCat` returns no matrix. -/
theorem HoriCat_column_sum_wraps :
    wideRow.WF ∧ oneCell.WF ∧ wideRow.nrows = oneCell.nrows ∧
      HoriCat wideRow oneCell = .error .InvalidDimension := by
  refine ⟨⟨by decide, by decide, by decide, by decide, rfl, rfl, rfl, ?_⟩, by decide, rfl, rfl⟩
  intro r hr
  rw [List.mem_singleton.mp hr]
  exact List.length_replicate _ _

/-- C7, amended: for matrices `A`, `B` with equal row counts whose column
counts add up to at most `2^32 - 1`, `HoriCat(A, B)` returns a matrix with
`A.nrows` rows and `A.ncolumns + B.ncolumns` columns, and in every row `i`
the cell `c` holds `A[i][c]` for `c < A.ncolumns` and `B[i][c - A.ncolumns]`
for `A.ncolumns ≤ c < A.ncolumns + B.ncolumns`. -/
theorem HoriCat_concat [Zero α] (A B : Matrix α) (hA : A.WF) (hB : B.WF)
    (hrows : A.nrows = B.nrows) (hsum : A.ncolumns + B.ncolumns ≤ 2 ^ 32 - 1) :
    ∃ H, HoriCat A B = .ok H ∧ H.nrows = A.nrows ∧ H.ncolumns = A.ncolumns + B.ncolumns ∧
      H.Shaped A.nrows (A.ncolumns + B.ncolumns) ∧
      ∀ i, i < A.nrows →
        (∀ c, c < A.ncolumns → H.get? i c = A.get? i c ∧ H.get? i c = some (A.elem i c)) ∧
        (∀ c, A.ncolumns ≤ c → c < A.ncolumns + B.ncolumns →
          H.get? i c = B.get? i (c - A.ncolumns) ∧
            H.get? i c = some (B.elem i (c - A.ncolumns))) := by
  obtain ⟨H, hH, hHsh, hval⟩ := HoriCat_spec A B hA hB hrows (by omega)
  refine ⟨H, hH, hHsh.1, hHsh.2.1, hHsh, fun i hi => ⟨fun c hc => ?_, fun c hc1 hc2 => ?_⟩⟩
  · rw [(hval i hi).1 c hc, Matrix.get?_eq_elem hA.2.2.2.2 hi hc]
    exact ⟨rfl, rfl⟩
  · rw [(hval i hi).2 c hc1 hc2,
      Matrix.get?_eq_elem hB.2.2.2.2 (show i < B.nrows by omega)
        (show c - A.ncolumns < B.ncolumns by omega)]
    exact ⟨rfl, rfl⟩

/-- The amended C7 at `A = [[1,2],[3,4]]`, `B = [[5,6],[7,8]]`. -/
theorem HoriCat_concat_witness :
    exA.WF ∧ exB.WF ∧ exA.nrows = exB.nrows ∧ exA.ncolumns + exB.ncolumns ≤ 2 ^ 32 - 1 ∧
      ∃ H, HoriCat exA exB = .ok H ∧ H.nrows = exA.nrows ∧
        H.ncolumns = exA.ncolumns + exB.ncolumns ∧
        H.Shaped exA.nrows (exA.ncolumns + exB.ncolumns) ∧
        ∀ i, i < exA.nrows →
          (∀ c, c < exA.ncolumns →
            H.get? i c = exA.get? i c ∧ H.get? i c = some (exA.elem i c)) ∧
          (∀ c, exA.ncolumns ≤ c → c < exA.ncolumns + exB.ncolumns →
            H.get? i c = exB.get? i (c - exA.ncolumns) ∧
              H.get? i c = some (exB.elem i (c - exA.ncolumns))) :=
  ⟨by decide, by decide, rfl, by decide,
    HoriCat_concat exA exB (by decide) (by decide) rfl (by decide)⟩

/-! ## The Kronecker product -/

theorem block_div {k r x : Nat} (hx : x < r) : (k * r + x) / r = k := by
  have hr : 0 < r := by omega
  rw [Nat.add_comm, Nat.add_mul_div_right _ _ hr, Nat.div_eq_of_lt hx, Nat.zero_add]

theorem block_mod {k r x : Nat} (hx : x < r) : (k * r + x) % r = x := by
  rw [Nat.add_comm, Nat.add_mul_mod_self_right, Nat.mod_eq_of_lt hx]

theorem block_lt {k r x n : Nat} (hk : k < n) (hx : x < r) : k * r + x < n * r := by
  have h : (k + 1) * r ≤ n * r := Nat.mul_le_mul_right r hk
  rw [Nat.add_mul, Nat.one_mul] at h
  omega

theorem block_eq {a r k x : Nat} (hk : a / r = k) (hx : a % r = x) : a = k * r + x := by
  have := Nat.div_add_mod a r
  rw [hk, hx, Nat.mul_comm] at this
  exact this.symm

theorem KInv_step [MulZeroClass α] (A B : Matrix α) {m n p q : Nat} {t : Matrix α}
    (h : KInv A B m n p q t) (hm : m < A.nrows) (hn : n < A.ncolumns) (hp : p < B.nrows)
    (hq : q < B.ncolumns) :
    ∃ t', t.write (m * B.nrows + p) (n * B.ncolumns + q) (A.elem m n * B.elem p q) = .ok t' ∧
      KInv A B m n p (q + 1) t' := by
  obtain ⟨hsh, hval⟩ := h
  obtain ⟨t', hw, hsh', hget⟩ := Matrix.write_ok hsh (block_lt hm hp) (block_lt hn hq)
    (A.elem m n * B.elem p q)
  refine ⟨t', hw, hsh', ?_⟩
  intro a b ha hb hd
  rw [hget a b]
  by_cases htgt : a = m * B.nrows + p ∧ b = n * B.ncolumns + q
  · rw [if_pos htgt, htgt.1, htgt.2, block_div hp, block_div hq, block_mod hp, block_mod hq]
  · rw [if_neg htgt]
    apply hval a b ha hb
    unfold kdone at hd ⊢
    by_cases hnew : a / B.nrows = m ∧ b / B.ncolumns = n ∧ a % B.nrows = p ∧
        b % B.ncolumns = q
    · exact absurd ⟨block_eq hnew.1 hnew.2.2.1, block_eq hnew.2.1 hnew.2.2.2⟩ htgt
    · omega

theorem KInv_q_end [MulZeroClass α] (A B : Matrix α) {m n p : Nat} {t : Matrix α}
    (hrc : 0 < B.ncolumns) (h : KInv A B m n p B.ncolumns t) : KInv A B m n (p + 1) 0 t := by
  refine ⟨h.1, fun a b ha hb hd => h.2 a b ha hb ?_⟩
  have := Nat.mod_lt b hrc
  unfold kdone at hd ⊢
  omega

theorem KInv_p_end [MulZeroClass α] (A B : Matrix α) {m n : Nat} {t : Matrix α}
    (hrr : 0 < B.nrows) (h : KInv A B m n B.nrows 0 t) : KInv A B m (n + 1) 0 0 t := by
  refine ⟨h.1, fun a b ha hb hd => h.2 a b ha hb ?_⟩
  have := Nat.mod_lt a hrr
  unfold kdone at hd ⊢
  omega

theorem KInv_n_end [MulZeroClass α] (A B : Matrix α) {m : Nat} {t : Matrix α}
    (h : KInv A B m A.ncolumns 0 0 t) : KInv A B (m + 1) 0 0 0 t := by
  refine ⟨h.1, fun a b ha hb hd => h.2 a b ha hb ?_⟩
  have hlt : b / B.ncolumns < A.ncolumns :=
    Nat.div_lt_of_lt_mul (by rw [Nat.mul_comm]; exact hb)
  unfold kdone at hd ⊢
  generalize a / B.nrows = x at hd ⊢
  generalize b / B.ncolumns = y at hd hlt ⊢
  generalize a % B.nrows = u at hd ⊢
  generalize b % B.ncolumns = v at hd ⊢
  omega

theorem mul32_eq {a b : Nat} (h : a * b < 2 ^ 32) : mul32 a b = a * b :=
  Nat.mod_eq_of_lt h

theorem mul64_eq {a b : Nat} (h : a * b < 2 ^ 64) : mul64 a b = a * b :=
  Nat.mod_eq_of_lt h

/-- Where the left operand has as many rows as the right one, or one row, the
index `m*m_step+p` of the source, with `m_step = left.nrows`, does not wrap and
is the index `m * right.nrows + p` of the block `m`. -/
theorem kron_index {lr rr m p : Nat} (hD : lr = rr ∨ lr = 1) (hm : m < lr) (hp : p < rr)
    (hR : lr * rr < 2 ^ 32) : add32 (mul32 m lr) p = m * rr + p := by
  rcases hD with h | h
  · subst h
    have hlt : m * lr + p < lr * lr := block_lt hm hp
    rw [mul32_eq (by omega), add32_eq (by omega)]
  · subst h
    have hm0 : m = 0 := by omega
    subst hm0
    rw [mul32_eq (by omega), add32_eq (by omega)]
    omega

/-- The four loops of `Kronecker`, run on a result of the right shape, for
operands whose block steps agree (`left.nrows` is `right.nrows` or `1`, and
the same for the columns): they run to the end and establish the invariant
for all cells. -/
theorem Kronecker_fill [MulZeroClass α] (A B : Matrix α) (hA : A.WF) (hB : B.WF)
    (hR : A.nrows * B.nrows < 2 ^ 32) (hC : A.ncolumns * B.ncolumns < 2 ^ 32)
    (hrow : A.nrows = B.nrows ∨ A.nrows = 1) (hcol : A.ncolumns = B.ncolumns ∨ A.ncolumns = 1)
    (z : Matrix α) (hz : z.Shaped (A.nrows * B.nrows) (A.ncolumns * B.ncolumns)) :
    ∃ K, forLoop 0 A.nrows (fun m ret =>
        forLoop 0 A.ncolumns (fun n ret =>
          forLoop 0 B.nrows (fun p ret =>
            forLoop 0 B.ncolumns (fun q ret =>
              match A.read m n with
              | .error e => .error e
              | .ok a =>
                match B.read p q with
                | .error e => .error e
                | .ok b =>
                  ret.write (add32 (mul32 m A.nrows) p) (add32 (mul32 n A.ncolumns) q) (a * b))
              ret) ret) ret) z = .ok K ∧ KInv A B A.nrows 0 0 0 K := by
  obtain ⟨_, _, _, _, hAsh⟩ := hA
  obtain ⟨hB1, _, hB2, _, hBsh⟩ := hB
  refine forLoop_inv (fun m t => KInv A B m 0 0 0 t) _ A.nrows z ?_ ?_
  · refine ⟨hz, fun a b _ _ hd => ?_⟩
    unfold kdone at hd
    generalize a / B.nrows = x at hd
    generalize b / B.ncolumns = y at hd
    generalize a % B.nrows = u at hd
    generalize b % B.ncolumns = v at hd
    omega
  intro m t hm hinv
  beta_reduce
  refine forLoop_inv_post (fun n u => KInv A B m n 0 0 u) _ _ A.ncolumns t hinv ?_
    (fun s' h => KInv_n_end A B h)
  intro n t hn hinv
  beta_reduce
  refine forLoop_inv_post (fun p u => KInv A B m n p 0 u) _ _ B.nrows t hinv ?_
    (fun s' h => KInv_p_end A B hB1 h)
  intro p t hp hinv
  beta_reduce
  refine forLoop_inv_post (fun q u => KInv A B m n p q u) _ _ B.ncolumns t hinv ?_
    (fun s' h => KInv_q_end A B hB2 h)
  intro q t hq hinv
  beta_reduce
  simp only [Matrix.read_eq_elem hAsh hm hn, Matrix.read_eq_elem hBsh hp hq,
    kron_index hrow hm hp hR, kron_index hcol hn hq hC]
  exact KInv_step A B hinv hm hn hp hq

theorem Kronecker_passes_of_ok [MulZeroClass α] {left right K : Matrix α}
    (h : Kronecker left right = .ok K) : KroneckerPasses left right := by
  unfold Kronecker at h
  split_ifs at h with h1 h2 h3
  exact ⟨h1, by omega, by omega, by omega⟩

theorem Kronecker_of_passes [MulZeroClass α] {left right : Matrix α}
    (h : KroneckerPasses left right) :
    Kronecker left right =
      match Matrix.new (mul32 left.nrows right.nrows) (mul32 left.ncolumns right.ncolumns) with
      | .error e => .error e
      | .ok ret =>
        forLoop 0 left.nrows (fun m ret =>
          forLoop 0 left.ncolumns (fun n ret =>
            forLoop 0 right.nrows (fun p ret =>
              forLoop 0 right.ncolumns (fun q ret =>
                match left.read m n with
                | .error e => .error e
                | .ok a =>
                  match right.read p q with
                  | .error e => .error e
                  | .ok b =>
                    ret.write (add32 (mul32 m left.nrows) p) (add32 (mul32 n left.ncolumns) q)
                      (a * b))
                ret) ret) ret) ret := by
  obtain ⟨h1, h2, h3, h4⟩ := h
  unfold Kronecker
  rw [if_neg h1, if_neg (by omega), if_neg (by omega)]

theorem dims_mul_lt {a b : Nat} (ha : a < 2 ^ 32) (hb : b < 2 ^ 32) : a * b < 2 ^ 64 := by
  have h : a * b < 2 ^ 32 * 2 ^ 32 := Nat.mul_lt_mul'' ha hb
  have e : (2 : Nat) ^ 32 * 2 ^ 32 = 2 ^ 64 := by norm_num
  omega

/-- For operands that pass the tests and whose block steps agree, `Kronecker`
returns the Kronecker product. -/
theorem Kronecker_total [MulZeroClass α] (A B : Matrix α) (hA : A.WF) (hB : B.WF)
    (hpass : KroneckerPasses A B)
    (hrow : A.nrows = B.nrows ∨ A.nrows = 1) (hcol : A.ncolumns = B.ncolumns ∨ A.ncolumns = 1) :
    ∃ K, Kronecker A B = .ok K ∧ K.Shaped (A.nrows * B.nrows) (A.ncolumns * B.ncolumns) ∧
      ∀ m n p q, m < A.nrows → n < A.ncolumns → p < B.nrows → q < B.ncolumns →
        K.get? (m * B.nrows + p) (n * B.ncolumns + q) = some (A.elem m n * B.elem p q) := by
  have hR : A.nrows * B.nrows < 2 ^ 32 := by
    have := hpass.2.2.1
    rw [mul64_eq (dims_mul_lt hA.2.1 hB.2.1)] at this
    unfold U32MAX at this
    omega
  have hC : A.ncolumns * B.ncolumns < 2 ^ 32 := by
    have := hpass.2.2.2
    rw [mul64_eq (dims_mul_lt hA.2.2.2.1 hB.2.2.2.1)] at this
    unfold U32MAX at this
    omega
  obtain ⟨z, hz, hzsh, _⟩ := Matrix.new_ok α (Nat.mul_pos hA.1 hB.1)
    (Nat.mul_pos hA.2.2.1 hB.2.2.1)
  obtain ⟨K, hK, hKsh, hKval⟩ := Kronecker_fill A B hA hB hR hC hrow hcol z hzsh
  refine ⟨K, ?_, hKsh, ?_⟩
  · rw [Kronecker_of_passes hpass, mul32_eq hR, mul32_eq hC, hz]
    exact hK
  · intro m n p q hm hn hp hq
    have h := hKval (m * B.nrows + p) (n * B.ncolumns + q) (block_lt hm hp) (block_lt hn hq)
      (by
        unfold kdone
        rw [block_div hp]
        exact Or.inl hm)
    rw [block_div hp, block_div hq, block_mod hp, block_mod hq] at h
    exact h

/-- C1, as stated, fails: `Kronecker([[1, 2]], [[3, 4, 5]])` passes the three
tests and returns `[[3, 4, 6, 8, 10, 0]]`; for `m = n = p = 0` and `q = 2`
the cell at row `m*A.nrows+p = 0` and column `n*A.ncolumns+q = 2` holds `6`,
written later by the step `n = 1, q = 0`, and not `A[0][0] * B[0][2] = 5`. -/
theorem Kronecker_elem_overwritten :
    exRow2.WF ∧ exRow3.WF ∧ KroneckerPasses exRow2 exRow3 ∧
      Kronecker exRow2 exRow3 = .ok ⟨1, 6, [[3, 4, 6, 8, 10, 0]]⟩ ∧
      (0 < exRow2.nrows ∧ 0 < exRow2.ncolumns ∧ 0 < exRow3.nrows ∧ 2 < exRow3.ncolumns) ∧
      (⟨1, 6, [[3, 4, 6, 8, 10, 0]]⟩ : Matrix Int).get? (0 * exRow2.nrows + 0)
          (0 * exRow2.ncolumns + 2) = some 6 ∧
      exRow2.elem 0 0 * exRow3.elem 0 2 = 5 ∧
      (⟨1, 6, [[3, 4, 6, 8, 10, 0]]⟩ : Matrix Int).get? (0 * exRow2.nrows + 0)
          (0 * exRow2.ncolumns + 2) ≠ some (exRow2.elem 0 0 * exRow3.elem 0 2) := by
  decide

/-- C1, amended: for matrices `A`, `B` that `Kronecker` accepts (they pass
its three tests) and whose block steps agree (`A.nrows` is `B.nrows` or `1`,
and `A.ncolumns` is `B.ncolumns` or `1`), `Kronecker(A, B)` returns a matrix,
and for every `m < A.nrows`, `n < A.ncolumns`, `p < B.nrows`, `q < B.ncolumns`
its element at row `m*A.nrows+p` and column `n*A.ncolumns+q` is
`A[m][n] * B[p][q]` (elements with an exact multiplication). -/
theorem Kronecker_elem [MulZeroClass α] (A B : Matrix α) (hA : A.WF) (hB : B.WF)
    (hacc : KroneckerPasses A B)
    (hrow : A.nrows = B.nrows ∨ A.nrows = 1) (hcol : A.ncolumns = B.ncolumns ∨ A.ncolumns = 1) :
    ∃ K, Kronecker A B = .ok K ∧
      ∀ m n p q, m < A.nrows → n < A.ncolumns → p < B.nrows → q < B.ncolumns →
        K.get? (m * A.nrows + p) (n * A.ncolumns + q) = some (A.elem m n * B.elem p q) := by
  obtain ⟨K, hK, _, hval⟩ := Kronecker_total A B hA hB hacc hrow hcol
  refine ⟨K, hK, ?_⟩
  intro m n p q hm hn hp hq
  have e1 : m * A.nrows + p = m * B.nrows + p := by
    rcases hrow with e | e
    · rw [e]
    · have : m = 0 := by omega
      subst this
      simp
  have e2 : n * A.ncolumns + q = n * B.ncolumns + q := by
    rcases hcol with e | e
    · rw [e]
    · have : n = 0 := by omega
      subst this
      simp
  rw [e1, e2]
  exact hval m n p q hm hn hp hq

/-- The amended C1 at `A = [[1,2],[3,4]]`, `B = [[5,6],[7,8]]`. -/
theorem Kronecker_elem_witness :
    exA.WF ∧ exB.WF ∧ KroneckerPasses exA exB ∧
      ∃ K, Kronecker exA exB = .ok K ∧
        ∀ m n p q, m < exA.nrows → n < exA.ncolumns → p < exB.nrows → q < exB.ncolumns →
          K.get? (m * exA.nrows + p) (n * exA.ncolumns + q)
            = some (exA.elem m n * exB.elem p q) :=
  ⟨by decide, by decide, by decide,
    Kronecker_elem exA exB (by decide) (by decide) (by decide) (Or.inl rfl) (Or.inl rfl)⟩

/-- The Kronecker product of the concrete scenario's matrices. -/
theorem scenario_Kronecker :
    Kronecker exA exB
      = .ok ⟨4, 4, [[5, 6, 10, 12], [7, 8, 14, 16], [15, 18, 20, 24], [21, 24, 28, 32]]⟩ := by
  decide

/-- C2: the code at `left = [[1], [2]]`, `right = [[3], [4], [5]]`.  The
Kronecker product is `[[3], [4], [5], [6], [8], [10]]`; the source steps the
row blocks by `left.nrows = 2` and not by `right.nrows = 3`, so the block of
`left[1][0]` overwrites row `2` and row `5` is never written. -/
theorem Kronecker_block_step :
    Kronecker exCol2 exCol3 = .ok ⟨6, 1, [[3], [4], [6], [8], [10], [0]]⟩ ∧
      (⟨6, 1, [[3], [4], [6], [8], [10], [0]]⟩ : Matrix Int).get? (0 * exCol3.nrows + 2)
          (0 * exCol3.ncolumns + 0) = some 6 ∧
      exCol2.elem 0 0 * exCol3.elem 2 0 = 5 ∧
      Kronecker exA (⟨1, 1, [[1]]⟩ : Matrix Int) = .error .OutOfBounds := by
  decide

theorem Matrix.write_dims {t t' : Matrix α} {i j : Nat} {v : α}
    (h : t.write i j v = .ok t') : t'.nrows = t.nrows ∧ t'.ncolumns = t.ncolumns := by
  unfold Matrix.write at h
  split at h
  · split_ifs at h
    cases h
    exact ⟨rfl, rfl⟩
  · cases h

theorem Matrix.new_dims [Zero α] {R C : Nat} {z : Matrix α} (h : Matrix.new R C = .ok z) :
    z.nrows = R ∧ z.ncolumns = C := by
  unfold Matrix.new at h
  split_ifs at h
  cases h
  exact ⟨rfl, rfl⟩

/-- C3: when `Kronecker(left, right)` returns a matrix, its row count is the
product `left.nrows * right.nrows` and its column count is the product
`left.ncolumns * right.ncolumns`, as natural numbers, and both products are
at most `2^32 - 1` (the four counters being `uint32_t` values). -/
theorem Kronecker_dims [MulZeroClass α] (left right K : Matrix α)
    (hl : left.nrows < 2 ^ 32 ∧ left.ncolumns < 2 ^ 32)
    (hr : right.nrows < 2 ^ 32 ∧ right.ncolumns < 2 ^ 32)
    (h : Kronecker left right = .ok K) :
    K.nrows = left.nrows * right.nrows ∧ K.ncolumns = left.ncolumns * right.ncolumns ∧
      left.nrows * right.nrows ≤ 2 ^ 32 - 1 ∧ left.ncolumns * right.ncolumns ≤ 2 ^ 32 - 1 := by
  have hpass := Kronecker_passes_of_ok h
  have hR : left.nrows * right.nrows ≤ 2 ^ 32 - 1 := by
    have := hpass.2.2.1
    rw [mul64_eq (dims_mul_lt hl.1 hr.1)] at this
    unfold U32MAX at this
    omega
  have hC : left.ncolumns * right.ncolumns ≤ 2 ^ 32 - 1 := by
    have := hpass.2.2.2
    rw [mul64_eq (dims_mul_lt hl.2 hr.2)] at this
    unfold U32MAX at this
    omega
  rw [Kronecker_of_passes hpass, mul32_eq (by omega), mul32_eq (by omega)] at h
  cases hnew : (Matrix.new (left.nrows * right.nrows) (left.ncolumns * right.ncolumns) :
      Except Error (Matrix α)) with
  | error e => rw [hnew] at h; cases h
  | ok ret =>
    rw [hnew] at h
    have hdims := Matrix.new_dims hnew
    have hK : K.nrows = left.nrows * right.nrows ∧ K.ncolumns = left.ncolumns * right.ncolumns := by
      refine forLoop_preserves
        (fun t => t.nrows = left.nrows * right.nrows ∧ t.ncolumns = left.ncolumns * right.ncolumns)
        _ ?_ _ _ ret K hdims h
      intro m t t' hP h
      refine forLoop_preserves
        (fun t => t.nrows = left.nrows * right.nrows ∧ t.ncolumns = left.ncolumns * right.ncolumns)
        _ ?_ _ _ t t' hP h
      intro n t t' hP h
      refine forLoop_preserves
        (fun t => t.nrows = left.nrows * right.nrows ∧ t.ncolumns = left.ncolumns * right.ncolumns)
        _ ?_ _ _ t t' hP h
      intro p t t' hP h
      refine forLoop_preserves
        (fun t => t.nrows = left.nrows * right.nrows ∧ t.ncolumns = left.ncolumns * right.ncolumns)
        _ ?_ _ _ t t' hP h
      intro q t t' hP h
      beta_reduce at h
      split at h
      · cases h
      · split at h
        · cases h
        · have := Matrix.write_dims h
          exact ⟨this.1.trans hP.1, this.2.trans hP.2⟩
    exact ⟨hK.1, hK.2, hR, hC⟩

/-- C3 at `left = [[1, 2]]`, `right = [[3, 4, 5]]`. -/
theorem Kronecker_dims_witness :
    (exRow2.nrows < 2 ^ 32 ∧ exRow2.ncolumns < 2 ^ 32) ∧
      (exRow3.nrows < 2 ^ 32 ∧ exRow3.ncolumns < 2 ^ 32) ∧
      Kronecker exRow2 exRow3 = .ok ⟨1, 6, [[3, 4, 6, 8, 10, 0]]⟩ ∧
      (1 = exRow2.nrows * exRow3.nrows ∧ 6 = exRow2.ncolumns * exRow3.ncolumns ∧
        exRow2.nrows * exRow3.nrows ≤ 2 ^ 32 - 1 ∧
        exRow2.ncolumns * exRow3.ncolumns ≤ 2 ^ 32 - 1) :=
  ⟨by decide, by decide, by decide,
    Kronecker_dims exRow2 exRow3 ⟨1, 6, [[3, 4, 6, 8, 10, 0]]⟩ (by decide) (by decide)
      (by decide)⟩

theorem big_WF : big.WF := by
  refine ⟨by decide, by decide, by decide, by decide, rfl, rfl, ?_, ?_⟩
  · exact List.length_replicate _ _
  · intro r hr
    rw [List.eq_of_mem_replicate hr]
    exact List.length_replicate _ _

/-- C4: the code at `left = right =` a `40000 × 40000` matrix.  The product
of the four dimensions and the element size, `20480000000000000000`, exceeds
`0x3FFFFFFF00000001`; the 64-bit `limit_test` wraps to
`2033255926290448384`, all three tests pass, and `Kronecker` does not fail
with `Overflow`: it goes on to build the `1600000000 × 1600000000` result. -/
theorem Kronecker_limit_wraps :
    big.WF ∧
      big.nrows * big.nrows * big.ncolumns * big.ncolumns * 8 > 0x3FFFFFFF00000001 ∧
      limit_test big big = 2033255926290448384 ∧ KroneckerPasses big big ∧
      Kronecker big big ≠ .error .Overflow ∧
      ∃ K, Kronecker big big = .ok K ∧ K.nrows = 1600000000 ∧ K.ncolumns = 1600000000 := by
  obtain ⟨K, hK, hsh, _⟩ := Kronecker_total big big big_WF big_WF (by decide) (Or.inl rfl)
    (Or.inl rfl)
  refine ⟨big_WF, by decide, by decide, by decide, ?_, K, hK, hsh.1, hsh.2.1⟩
  rw [hK]
  exact fun h => nomatch h

/-! ## Matrix multiplication -/

theorem dot_succ [NonUnitalNonAssocSemiring α] (l r : Matrix α) (n a b : Nat) :
    dot l r (n + 1) a b = dot l r n a b + l.elem a n * r.elem n b :=
  Finset.sum_range_succ _ _

theorem Matrix.read_of_get? {t : Matrix α} {a b : Nat} {v : α} (h : t.get? a b = some v) :
    t.read a b = .ok v := by
  simp [Matrix.read, h]

theorem MInv_step [NonUnitalNonAssocSemiring α] (l r : Matrix α) (hl : l.WF) (hr : r.WF)
    (hcommon : l.ncolumns = r.nrows) {i j k : Nat} {t : Matrix α} (h : MInv l r i j k t)
    (hi : i < l.ncolumns) (hj : j < l.nrows) (hk : k < r.ncolumns) :
    ∃ t', (match t.read j k with
        | .error e => Except.error e
        | .ok c =>
          match l.read j i with
          | .error e => Except.error e
          | .ok a =>
            match r.read i k with
            | .error e => Except.error e
            | .ok b => t.write j k (c + a * b)) = .ok t' ∧ MInv l r i j (k + 1) t' := by
  obtain ⟨hsh, hval⟩ := h
  have hc := hval j k hj hk
  rw [if_neg (by omega)] at hc
  obtain ⟨t', hw, hsh', hget⟩ := Matrix.write_ok hsh hj hk
    (dot l r i j k + l.elem j i * r.elem i k)
  refine ⟨t', ?_, hsh', ?_⟩
  · simp only [Matrix.read_of_get? hc, Matrix.read_eq_elem hl.2.2.2.2 hj hi,
      Matrix.read_eq_elem hr.2.2.2.2 (hcommon ▸ hi) hk]
    exact hw
  · intro a b ha hb
    rw [hget a b]
    by_cases htgt : a = j ∧ b = k
    · rw [if_pos htgt, if_pos (by omega), htgt.1, htgt.2, dot_succ]
    · rw [if_neg htgt, hval a b ha hb]
      by_cases hd : a < j ∨ (a = j ∧ b < k)
      · rw [if_pos hd, if_pos (by omega)]
      · rw [if_neg hd, if_neg (by omega)]

theorem MInv_k_end [NonUnitalNonAssocSemiring α] (l r : Matrix α) {i j : Nat} {t : Matrix α}
    (h : MInv l r i j r.ncolumns t) : MInv l r i (j + 1) 0 t := by
  refine ⟨h.1, fun a b ha hb => ?_⟩
  rw [h.2 a b ha hb]
  by_cases hd : a < j ∨ (a = j ∧ b < r.ncolumns)
  · rw [if_pos hd, if_pos (by omega)]
  · rw [if_neg hd, if_neg (by omega)]

theorem MInv_j_end [NonUnitalNonAssocSemiring α] (l r : Matrix α) {i : Nat} {t : Matrix α}
    (h : MInv l r i l.nrows 0 t) : MInv l r (i + 1) 0 0 t := by
  refine ⟨h.1, fun a b ha hb => ?_⟩
  rw [h.2 a b ha hb, if_pos (by omega), if_neg (by omega)]

theorem Mul_spec [NonUnitalNonAssocSemiring α] (l r : Matrix α) (hl : l.WF) (hr : r.WF)
    (hcommon : l.ncolumns = r.nrows) :
    ∃ M, Mul l r = .ok M ∧ M.Shaped l.nrows r.ncolumns ∧
      ∀ j k, j < l.nrows → k < r.ncolumns → M.get? j k = some (dot l r l.ncolumns j k) := by
  obtain ⟨z, hz, hzsh, _⟩ := Matrix.new_ok α hl.1 hr.2.2.1
  have hguard : ¬ (l.ncolumns ≠ r.nrows ∨ l.nrows ≤ 0 ∨ l.ncolumns ≤ 0 ∨ r.nrows ≤ 0 ∨
      r.ncolumns ≤ 0) := by
    have := hl.1; have := hl.2.2.1; have := hr.1; have := hr.2.2.1
    omega
  -- the loops that set every cell to zero
  obtain ⟨z0, hz0, hz0sh, hz0val⟩ := fill2 l.nrows r.ncolumns (fun _ _ => (0 : α))
    (fun t => t.ncolumns) (fun i j t => t.write i j 0) (fun t ht => ht.2.1)
    (fun _ _ _ _ _ _ => rfl) z hzsh
  simp only [Mul, if_neg hguard, hz, hzsh.1, hz0]
  -- the accumulation
  refine forLoop_inv_post (fun i t => MInv l r i 0 0 t) _ _ l.ncolumns z0 ?_ ?_ ?_
  · refine ⟨hz0sh, fun a b ha hb => ?_⟩
    rw [hz0val a b ha hb, if_neg (by omega)]
    simp [dot]
  · intro i t hi hinv
    beta_reduce
    refine forLoop_inv_post (fun j u => MInv l r i j 0 u) _ _ l.nrows t hinv ?_
      (fun s' h => MInv_j_end l r h)
    intro j t hj hinv
    beta_reduce
    refine forLoop_inv_post (fun k u => MInv l r i j k u) _ _ r.ncolumns t hinv ?_
      (fun s' h => MInv_k_end l r h)
    intro k t hk hinv
    exact MInv_step l r hl hr hcommon hinv hi hj hk
  · intro M hM
    refine ⟨hM.1, fun j k hj hk => ?_⟩
    rw [hM.2 j k hj hk, if_neg (by omega)]

/-- C5: for matrices `l`, `r` with `l.ncolumns = r.nrows`, `Mul(l, r)`, with
its accumulation loop over the contracted dimension outermost, returns a
matrix with `l.nrows` rows and `r.ncolumns` columns whose cell `(j, k)` holds
the sum over `i < l.ncolumns` of `l[j][i] * r[i][k]` (elements in a semiring,
so that arithmetic is exact). -/
theorem Mul_sum [NonUnitalNonAssocSemiring α] (l r : Matrix α) (hl : l.WF) (hr : r.WF)
    (hcommon : l.ncolumns = r.nrows) :
    ∃ M, Mul l r = .ok M ∧ M.nrows = l.nrows ∧ M.ncolumns = r.ncolumns ∧
      M.Shaped l.nrows r.ncolumns ∧
      ∀ j k, j < l.nrows → k < r.ncolumns →
        M.get? j k = some (Finset.sum (Finset.range l.ncolumns)
          (fun i => l.elem j i * r.elem i k)) := by
  obtain ⟨M, hM, hsh, hval⟩ := Mul_spec l r hl hr hcommon
  exact ⟨M, hM, hsh.1, hsh.2.1, hsh, hval⟩

/-- C5 at `l = [[3, 4, 5]]`, `r = [[3], [4], [5]]`. -/
theorem Mul_sum_witness :
    exA.WF ∧ exRow3.WF ∧ exCol3.WF ∧ exRow3.ncolumns = exCol3.nrows ∧
      ∃ M, Mul exRow3 exCol3 = .ok M ∧ M.nrows = exRow3.nrows ∧ M.ncolumns = exCol3.ncolumns ∧
        M.Shaped exRow3.nrows exCol3.ncolumns ∧
        ∀ j k, j < exRow3.nrows → k < exCol3.ncolumns →
          M.get? j k = some (Finset.sum (Finset.range exRow3.ncolumns)
            (fun i => exRow3.elem j i * exCol3.elem i k)) :=
  ⟨by decide, by decide, by decide, rfl, Mul_sum exRow3 exCol3 (by decide) (by decide) rfl⟩

/-! ## Construction -/

/-- C11: the constructor fails with `InvalidDimension` exactly when `rows` or
`columns` is zero; otherwise (allocation succeeding) it returns a matrix whose
counters are `rows` and `columns`, whose storage has that shape, and whose
`rows * columns` elements are all zero. -/
theorem Construct_zero_or_zeroed [Zero α] (rows columns : Nat) :
    ((Matrix.new rows columns : Except Error (Matrix α)) = .error .InvalidDimension ↔
        (rows = 0 ∨ columns = 0)) ∧
      ((rows = 0 ∨ columns = 0) → ∀ z : Matrix α, Matrix.new rows columns ≠ .ok z) ∧
      (¬ (rows = 0 ∨ columns = 0) →
        ∃ z : Matrix α, Matrix.new rows columns = .ok z ∧ z.nrows = rows ∧
          z.ncolumns = columns ∧ z.Shaped rows columns ∧
          (∀ a b, a < rows → b < columns → z.get? a b = some 0) ∧
          (List.map List.length z.row).sum = rows * columns) := by
  refine ⟨⟨fun h => ?_, fun h => ?_⟩, fun h z => ?_, fun h => ?_⟩
  · by_contra hne
    simp [Matrix.new, hne] at h
  · simp [Matrix.new, h]
  · simp [Matrix.new, h]
  · obtain ⟨z, hz, hzsh, hzval⟩ := Matrix.new_ok α (show 0 < rows by omega)
      (show 0 < columns by omega)
    refine ⟨z, hz, hzsh.1, hzsh.2.1, hzsh, hzval, ?_⟩
    have hz' : z = ⟨rows, columns, List.replicate rows (List.replicate columns 0)⟩ := by
      have : (Matrix.new rows columns : Except Error (Matrix α)) =
          .ok ⟨rows, columns, List.replicate rows (List.replicate columns 0)⟩ := by
        simp [Matrix.new, h]
      rw [hz] at this
      exact Except.ok.inj this
    rw [hz']
    simp

/-- C11 at `rows = 2`, `columns = 3` and at `rows = 0`. -/
theorem Construct_zero_or_zeroed_witness :
    (Matrix.new 2 3 : Except Error (Matrix Int)) = .ok ⟨2, 3, [[0, 0, 0], [0, 0, 0]]⟩ ∧
      (Matrix.new 0 3 : Except Error (Matrix Int)) = .error .InvalidDimension ∧
      ∃ z : Matrix Int, Matrix.new 2 3 = .ok z ∧ z.nrows = 2 ∧ z.ncolumns = 3 ∧
        z.Shaped 2 3 ∧ (∀ a b, a < 2 → b < 3 → z.get? a b = some 0) ∧
        (List.map List.length z.row).sum = 2 * 3 :=
  ⟨by decide, ((Construct_zero_or_zeroed 0 3).1).2 (Or.inl rfl),
    (Construct_zero_or_zeroed 2 3).2.2 (by decide)⟩

/-! ## Element-wise product, sum and difference -/

theorem Hadamard_spec [MulZeroClass α] (l r : Matrix α) (hl : l.WF) (hr : r.WF)
    (hrows : l.nrows = r.nrows) (hcols : l.ncolumns = r.ncolumns) :
    ∃ s, Hadamard l r = .ok s ∧ s.Shaped l.nrows l.ncolumns ∧
      ∀ a b, a < l.nrows → b < l.ncolumns → s.get? a b = some (l.elem a b * r.elem a b) := by
  obtain ⟨hl1, _, hl2, _, hlsh⟩ := hl
  obtain ⟨hr1, _, hr2, _, hrsh⟩ := hr
  obtain ⟨z, hz, hzsh, _⟩ := Matrix.new_ok α hl1 hl2
  have hguard : ¬ (l.nrows ≠ r.nrows ∨ l.ncolumns ≠ r.ncolumns ∨ l.nrows ≤ 0 ∨
      l.ncolumns ≤ 0) := by omega
  simp only [Hadamard, if_neg hguard, hz, hzsh.1]
  refine fill2 l.nrows l.ncolumns (fun a b => l.elem a b * r.elem a b) (fun t => t.ncolumns) _
    (fun t ht => ht.2.1) ?_ z hzsh
  intro i j t hi hj _
  simp only [Matrix.read_eq_elem hlsh hi hj,
    Matrix.read_eq_elem hrsh (hrows ▸ hi) (hcols ▸ hj)]

/-- C12: for matrices `l`, `r` of equal shape, `Hadamard`, `Add` and `Sub`
each return a matrix of that shape whose element at every `(i, j)` is
`l[i][j] * r[i][j]`, `l[i][j] + r[i][j]` and `l[i][j] - r[i][j]`
respectively (elements in a ring, so that arithmetic is exact). -/
theorem elementwise_ops [Ring α] (l r : Matrix α) (hl : l.WF) (hr : r.WF)
    (hrows : l.nrows = r.nrows) (hcols : l.ncolumns = r.ncolumns) :
    (∃ H, Hadamard l r = .ok H ∧ H.nrows = l.nrows ∧ H.ncolumns = l.ncolumns ∧
        H.Shaped l.nrows l.ncolumns ∧
        ∀ i j, i < l.nrows → j < l.ncolumns → H.get? i j = some (l.elem i j * r.elem i j)) ∧
      (∃ S, Add l r = .ok S ∧ S.nrows = l.nrows ∧ S.ncolumns = l.ncolumns ∧
        S.Shaped l.nrows l.ncolumns ∧
        ∀ i j, i < l.nrows → j < l.ncolumns → S.get? i j = some (l.elem i j + r.elem i j)) ∧
      (∃ D, Sub l r = .ok D ∧ D.nrows = l.nrows ∧ D.ncolumns = l.ncolumns ∧
        D.Shaped l.nrows l.ncolumns ∧
        ∀ i j, i < l.nrows → j < l.ncolumns → D.get? i j = some (l.elem i j - r.elem i j)) := by
  obtain ⟨H, hH, hHsh, hHval⟩ := Hadamard_spec l r hl hr hrows hcols
  obtain ⟨S, hS, hSsh, hSval⟩ := Add_spec l r hl hr hrows hcols
  obtain ⟨D, hD, hDsh, hDval⟩ := Sub_spec l r hl hr hrows hcols
  exact ⟨⟨H, hH, hHsh.1, hHsh.2.1, hHsh, hHval⟩, ⟨S, hS, hSsh.1, hSsh.2.1, hSsh, hSval⟩,
    ⟨D, hD, hDsh.1, hDsh.2.1, hDsh, hDval⟩⟩

/-- C12 at `l = [[1,2],[3,4]]`, `r = [[5,6],[7,8]]`. -/
theorem elementwise_ops_witness :
    exA.WF ∧ exB.WF ∧ exA.nrows = exB.nrows ∧ exA.ncolumns = exB.ncolumns ∧
      (∃ H, Hadamard exA exB = .ok H ∧ H.nrows = exA.nrows ∧ H.ncolumns = exA.ncolumns ∧
        H.Shaped exA.nrows exA.ncolumns ∧
        ∀ i j, i < exA.nrows → j < exA.ncolumns →
          H.get? i j = some (exA.elem i j * exB.elem i j)) ∧
      (∃ S, Add exA exB = .ok S ∧ S.nrows = exA.nrows ∧ S.ncolumns = exA.ncolumns ∧
        S.Shaped exA.nrows exA.ncolumns ∧
        ∀ i j, i < exA.nrows → j < exA.ncolumns →
          S.get? i j = some (exA.elem i j + exB.elem i j)) ∧
      (∃ D, Sub exA exB = .ok D ∧ D.nrows = exA.nrows ∧ D.ncolumns = exA.ncolumns ∧
        D.Shaped exA.nrows exA.ncolumns ∧
        ∀ i j, i < exA.nrows → j < exA.ncolumns →
          D.get? i j = some (exA.elem i j - exB.elem i j)) :=
  ⟨by decide, by decide, rfl, rfl, elementwise_ops exA exB (by decide) (by decide) rfl rfl⟩

/-! ## The in-place operations -/

/-- Two nested loops over an `R × C` matrix whose body replaces the cell
`(i, j)` by `f` of its value run to the end and leave `f x` where `x` was. -/
theorem map2 (f : α → α) (R C : Nat) (M : Matrix α) (hM : M.Shaped R C) :
    ∃ M', forLoop 0 R (fun i m =>
        forLoop 0 m.ncolumns (fun j m =>
          match m.read i j with
          | .error e => .error e
          | .ok x => m.write i j (f x)) m) M = .ok M' ∧ M'.Shaped R C ∧
      ∀ a b, a < R → b < C → M'.get? a b = (M.get? a b).map f := by
  refine forLoop_inv_post
    (fun i t => t.Shaped R C ∧ ∀ a b, a < R → b < C →
      t.get? a b = (M.get? a b).map (fun x => if a < i then f x else x)) _ _ R M ?_ ?_ ?_
  · refine ⟨hM, fun a b _ _ => ?_⟩
    simp
  · intro i t hi ⟨htsh, htval⟩
    beta_reduce
    rw [htsh.2.1]
    refine forLoop_inv_post
      (fun j u => u.Shaped R C ∧ ∀ a b, a < R → b < C →
        u.get? a b = (M.get? a b).map (fun x => if a < i ∨ (a = i ∧ b < j) then f x else x))
      _ _ C t ?_ ?_ ?_
    · refine ⟨htsh, fun a b ha hb => ?_⟩
      rw [htval a b ha hb]
      congr 1
      funext x
      by_cases h : a < i
      · rw [if_pos h, if_pos (Or.inl h)]
      · rw [if_neg h, if_neg (by omega)]
    · intro j u hj ⟨hush, huval⟩
      obtain ⟨x0, hx0⟩ := Matrix.get?_of_shaped hM hi hj
      have hread : u.get? i j = some x0 := by
        rw [huval i j hi hj, hx0]
        simp
      obtain ⟨u', hw, hsh', hget⟩ := Matrix.write_ok hush hi hj (f x0)
      refine ⟨u', ?_, hsh', ?_⟩
      · simp only [Matrix.read_of_get? hread]
        exact hw
      · intro a b ha hb
        rw [hget a b]
        by_cases htgt : a = i ∧ b = j
        · rw [if_pos htgt, htgt.1, htgt.2, hx0]
          simp
        · rw [if_neg htgt, huval a b ha hb]
          congr 1
          funext x
          by_cases h : a < i ∨ (a = i ∧ b < j)
          · rw [if_pos h, if_pos (by omega)]
          · rw [if_neg h, if_neg (by omega)]
    · intro s' ⟨hsh, hval⟩
      refine ⟨hsh, fun a b ha hb => ?_⟩
      rw [hval a b ha hb]
      congr 1
      funext x
      by_cases h : a < i ∨ (a = i ∧ b < C)
      · rw [if_pos h, if_pos (by omega)]
      · rw [if_neg h, if_neg (by omega)]
  · intro s' ⟨hsh, hval⟩
    refine ⟨hsh, fun a b ha hb => ?_⟩
    rw [hval a b ha hb]
    simp [ha]

theorem MulByScalar_spec [MulZeroClass α] (s : α) (M : Matrix α) (hM : M.WF) :
    ∃ M', MulByScalar s M = .ok M' ∧ M'.Shaped M.nrows M.ncolumns ∧
      ∀ a b, a < M.nrows → b < M.ncolumns → M'.get? a b = some (M.elem a b * s) := by
  obtain ⟨h1, _, h2, _, hsh⟩ := hM
  have hguard : ¬ (M.ncolumns ≤ 0 ∨ M.nrows = 0) := by omega
  obtain ⟨M', hM', hsh', hval⟩ := map2 (fun x => x * s) M.nrows M.ncolumns M hsh
  refine ⟨M', ?_, hsh', fun a b ha hb => ?_⟩
  · simp only [MulByScalar, if_neg hguard]
    exact hM'
  · rw [hval a b ha hb, Matrix.get?_eq_elem hsh ha hb]
    rfl

theorem Invert_spec [DivisionRing α] (k : α) (M : Matrix α) (hM : M.WF) :
    ∃ M', Invert k M = .ok M' ∧ M'.Shaped M.nrows M.ncolumns ∧
      ∀ a b, a < M.nrows → b < M.ncolumns → M'.get? a b = some (k / M.elem a b) := by
  obtain ⟨h1, _, h2, _, hsh⟩ := hM
  have hguard : ¬ (M.nrows ≤ 0 ∨ M.ncolumns ≤ 0) := by omega
  obtain ⟨M', hM', hsh', hval⟩ := map2 (fun x => k / x) M.nrows M.ncolumns M hsh
  refine ⟨M', ?_, hsh', fun a b ha hb => ?_⟩
  · simp only [Invert, if_neg hguard]
    exact hM'
  · rw [hval a b ha hb, Matrix.get?_eq_elem hsh ha hb]
    rfl

theorem scenario_MulByScalar : MulByScalar 2 exA = .ok ⟨2, 2, [[2, 4], [6, 8]]⟩ := by decide

theorem scenario_Invert : Invert 1 exQ = .ok ⟨2, 2, [[1, 1 / 2], [1 / 3, 1 / 4]]⟩ := by
  simp [Invert, forLoop, loop, Matrix.read, Matrix.write, Matrix.get?, exQ]

/-- C13: for every scalar `s` and every matrix `M` with non-zero dimensions,
`MulByScalar(s, M)` returns normally and leaves `M` with the same row and
column counts and with every element `x` replaced by `x * s`; and
`MulByScalar(2, [[1,2],[3,4]])` leaves `[[2,4],[6,8]]`. -/
theorem MulByScalar_scales [MulZeroClass α] (s : α) (M : Matrix α) (hM : M.WF) :
    (∃ M', MulByScalar s M = .ok M' ∧ M'.nrows = M.nrows ∧ M'.ncolumns = M.ncolumns ∧
        M'.Shaped M.nrows M.ncolumns ∧
        ∀ i j, i < M.nrows → j < M.ncolumns → M'.get? i j = some (M.elem i j * s)) ∧
      MulByScalar (2 : Int) exA = .ok ⟨2, 2, [[2, 4], [6, 8]]⟩ := by
  obtain ⟨M', hM', hsh, hval⟩ := MulByScalar_spec s M hM
  exact ⟨⟨M', hM', hsh.1, hsh.2.1, hsh, hval⟩, by decide⟩

/-- C13 at `s = 3`, `M = [[3, 4, 5]]`. -/
theorem MulByScalar_scales_witness :
    exRow3.WF ∧ MulByScalar (3 : Int) exRow3 = .ok ⟨1, 3, [[9, 12, 15]]⟩ ∧
      (∃ M', MulByScalar (3 : Int) exRow3 = .ok M' ∧ M'.nrows = exRow3.nrows ∧
        M'.ncolumns = exRow3.ncolumns ∧ M'.Shaped exRow3.nrows exRow3.ncolumns ∧
        ∀ i j, i < exRow3.nrows → j < exRow3.ncolumns →
          M'.get? i j = some (exRow3.elem i j * 3)) :=
  ⟨by decide, by decide, (MulByScalar_scales (3 : Int) exRow3 (by decide)).1⟩

/-- C14: for every `k` and every matrix `M` with non-zero dimensions,
`Invert(k, M)` returns normally and leaves `M` with the same row and column
counts and with every element `x` replaced by `k / x`, the division of a
field, which for `x ≠ 0` is exact: `(k / x) * x = k`; and
`Invert(1, [[1,2],[3,4]])` leaves `[[1, 1/2], [1/3, 1/4]]`. -/
theorem Invert_divides [Field α] (k : α) (M : Matrix α) (hM : M.WF) :
    (∃ M', Invert k M = .ok M' ∧ M'.nrows = M.nrows ∧ M'.ncolumns = M.ncolumns ∧
        M'.Shaped M.nrows M.ncolumns ∧
        ∀ i j, i < M.nrows → j < M.ncolumns →
          M'.get? i j = some (k / M.elem i j) ∧
            (M.elem i j ≠ 0 → k / M.elem i j * M.elem i j = k)) ∧
      Invert (1 : Rat) exQ = .ok ⟨2, 2, [[1, 1 / 2], [1 / 3, 1 / 4]]⟩ := by
  obtain ⟨M', hM', hsh, hval⟩ := Invert_spec k M hM
  refine ⟨⟨M', hM', hsh.1, hsh.2.1, hsh, fun i j hi hj => ⟨hval i j hi hj, fun hne => ?_⟩⟩, ?_⟩
  · field_simp
  · simp [Invert, forLoop, loop, Matrix.read, Matrix.write, Matrix.get?, exQ]

/-- C14 at `k = 6`, `M = [[1,2],[3,4]]` over the rationals. -/
theorem Invert_divides_witness :
    exQ.WF ∧
      (∃ M', Invert (6 : Rat) exQ = .ok M' ∧ M'.nrows = exQ.nrows ∧
        M'.ncolumns = exQ.ncolumns ∧ M'.Shaped exQ.nrows exQ.ncolumns ∧
        ∀ i j, i < exQ.nrows → j < exQ.ncolumns →
          M'.get? i j = some (6 / exQ.elem i j) ∧
            (exQ.elem i j ≠ 0 → 6 / exQ.elem i j * exQ.elem i j = 6)) :=
  ⟨by decide, (Invert_divides (6 : Rat) exQ (by decide)).1⟩

/-! ## The invariant of the data model -/

theorem Matrix.write_shaped {t t' : Matrix α} {i j : Nat} {v : α} {R C : Nat}
    (h : t.write i j v = .ok t') (hP : t.Shaped R C) : t'.Shaped R C := by
  obtain ⟨h1, h2, h3, h4⟩ := hP
  unfold Matrix.write at h
  split at h
  · rename_i r hr
    split_ifs at h
    cases h
    refine ⟨h1, h2, by simpa using h3, ?_⟩
    intro x hx
    rcases List.mem_or_eq_of_mem_set hx with hmem | heq
    · exact h4 x hmem
    · rw [heq, List.length_set]
      exact h4 r (List.getElem?_mem hr)
  · cases h

theorem Matrix.new_shaped [Zero α] {R C : Nat} {z : Matrix α} (h : Matrix.new R C = .ok z) :
    z.Shaped R C ∧ 0 < R ∧ 0 < C := by
  unfold Matrix.new at h
  split_ifs at h with hz
  cases h
  refine ⟨⟨rfl, rfl, by simp, ?_⟩, by omega, by omega⟩
  intro r hr
  rw [List.eq_of_mem_replicate hr]
  simp

theorem Matrix.invariant_of_shaped {t : Matrix α} {R C : Nat} (h : t.Shaped R C) (hR : 0 < R)
    (hC : 0 < C) : t.Invariant := by
  obtain ⟨h1, h2, h3, h4⟩ := h
  refine ⟨by omega, by omega, by omega, ?_⟩
  intro r hr
  rw [h4 r hr, h2]

/-- Two nested loops whose body keeps the shape keep the shape. -/
theorem nest2_shaped {R C : Nat} (lo1 hi1 : Nat) (lo2 hi2 : Matrix α → Nat)
    (body : Nat → Nat → Matrix α → Except Error (Matrix α))
    (hbody : ∀ i j t t', t.Shaped R C → body i j t = .ok t' → t'.Shaped R C)
    (s s' : Matrix α) (hs : s.Shaped R C)
    (h : forLoop lo1 hi1 (fun i t => forLoop (lo2 t) (hi2 t) (fun j t => body i j t) t) s
      = .ok s') : s'.Shaped R C := by
  refine forLoop_preserves (fun t => t.Shaped R C) _ ?_ _ _ s s' hs h
  intro i t t' hP h
  exact forLoop_preserves (fun t => t.Shaped R C) _ (fun j u u' hu hb => hbody i j u u' hu hb)
    _ _ t t' hP h

theorem Kronecker_invariant [MulZeroClass α] (left right K : Matrix α)
    (h : Kronecker left right = .ok K) : K.Invariant := by
  rw [Kronecker_of_passes (Kronecker_passes_of_ok h)] at h
  split at h
  · cases h
  · rename_i ret hnew
    obtain ⟨hsh, hR, hC⟩ := Matrix.new_shaped hnew
    refine Matrix.invariant_of_shaped ?_ hR hC
    refine forLoop_preserves
      (fun t => t.Shaped (mul32 left.nrows right.nrows) (mul32 left.ncolumns right.ncolumns))
      _ ?_ _ _ ret K hsh h
    intro m t t' hP h
    refine forLoop_preserves
      (fun t => t.Shaped (mul32 left.nrows right.nrows) (mul32 left.ncolumns right.ncolumns))
      _ ?_ _ _ t t' hP h
    intro n t t' hP h
    refine nest2_shaped 0 _ (fun _ => 0) (fun _ => right.ncolumns) _ ?_ t t' hP h
    intro p q u u' hu hb
    split at hb
    · cases hb
    · split at hb
      · cases hb
      · exact Matrix.write_shaped hb hu

theorem Hadamard_invariant [MulZeroClass α] (l r K : Matrix α) (h : Hadamard l r = .ok K) :
    K.Invariant := by
  unfold Hadamard at h
  split_ifs at h
  split at h
  · cases h
  · rename_i ret hnew
    obtain ⟨hsh, hR, hC⟩ := Matrix.new_shaped hnew
    refine Matrix.invariant_of_shaped ?_ hR hC
    refine nest2_shaped 0 _ (fun _ => 0) (fun t => t.ncolumns) _ ?_ ret K hsh h
    intro i j u u' hu hb
    split at hb
    · cases hb
    · split at hb
      · cases hb
      · exact Matrix.write_shaped hb hu

theorem Add_invariant [AddGroup α] (l r K : Matrix α) (h : Add l r = .ok K) :
    K.Invariant := by
  unfold Add at h
  split_ifs at h
  split at h
  · cases h
  · rename_i ret hnew
    obtain ⟨hsh, hR, hC⟩ := Matrix.new_shaped hnew
    refine Matrix.invariant_of_shaped ?_ hR hC
    refine nest2_shaped 0 _ (fun _ => 0) (fun _ => l.ncolumns) _ ?_ ret K hsh h
    intro i j u u' hu hb
    split at hb
    · cases hb
    · split at hb
      · cases hb
      · exact Matrix.write_shaped hb hu

theorem Sub_invariant [AddGroup α] (l r K : Matrix α) (h : Sub l r = .ok K) :
    K.Invariant := by
  unfold Sub at h
  split_ifs at h
  split at h
  · cases h
  · rename_i ret hnew
    obtain ⟨hsh, hR, hC⟩ := Matrix.new_shaped hnew
    refine Matrix.invariant_of_shaped ?_ hR hC
    refine nest2_shaped 0 _ (fun _ => 0) (fun _ => l.ncolumns) _ ?_ ret K hsh h
    intro i j u u' hu hb
    split at hb
    · cases hb
    · split at hb
      · cases hb
      · exact Matrix.write_shaped hb hu

theorem Transpose_invariant [Zero α] (m K : Matrix α) (h : Transpose m = .ok K) :
    K.Invariant := by
  unfold Transpose at h
  split_ifs at h
  split at h
  · cases h
  · rename_i ret hnew
    obtain ⟨hsh, hR, hC⟩ := Matrix.new_shaped hnew
    refine Matrix.invariant_of_shaped ?_ hR hC
    refine nest2_shaped 0 _ (fun _ => 0) (fun t => t.ncolumns) _ ?_ ret K hsh h
    intro i j u u' hu hb
    split at hb
    · cases hb
    · exact Matrix.write_shaped hb hu

theorem HoriCat_invariant [Zero α] (l r K : Matrix α) (h : HoriCat l r = .ok K) :
    K.Invariant := by
  unfold HoriCat at h
  split_ifs at h
  split at h
  · cases h
  · rename_i ret hnew
    obtain ⟨hsh, hR, hC⟩ := Matrix.new_shaped hnew
    refine Matrix.invariant_of_shaped ?_ hR hC
    refine forLoop_preserves
      (fun t => t.Shaped l.nrows (add32 l.ncolumns r.ncolumns)) _ ?_ _ _ ret K hsh h
    intro i t t' hP h
    beta_reduce at h
    split at h
    · cases h
    · rename_i t1 h1
      have hP1 : t1.Shaped l.nrows (add32 l.ncolumns r.ncolumns) := by
        refine forLoop_preserves
          (fun t => t.Shaped l.nrows (add32 l.ncolumns r.ncolumns)) _ ?_ _ _ t t1 hP h1
        intro run u u' hu hb
        split at hb
        · cases hb
        · exact Matrix.write_shaped hb hu
      refine forLoop_preserves
        (fun t => t.Shaped l.nrows (add32 l.ncolumns r.ncolumns)) _ ?_ _ _ t1 t' hP1 h
      intro run u u' hu hb
      split at hb
      · cases hb
      · exact Matrix.write_shaped hb hu

theorem Mul_invariant [NonUnitalNonAssocSemiring α] (l r K : Matrix α)
    (h : Mul l r = .ok K) : K.Invariant := by
  unfold Mul at h
  split_ifs at h
  split at h
  · cases h
  · rename_i ret hnew
    obtain ⟨hsh, hR, hC⟩ := Matrix.new_shaped hnew
    refine Matrix.invariant_of_shaped ?_ hR hC
    split at h
    · cases h
    · rename_i ret0 h0
      have hsh0 : ret0.Shaped l.nrows r.ncolumns :=
        nest2_shaped 0 _ (fun _ => 0) (fun t => t.ncolumns) _
          (fun i j u u' hu hb => Matrix.write_shaped hb hu) ret ret0 hsh h0
      refine forLoop_preserves (fun t => t.Shaped l.nrows r.ncolumns) _ ?_ _ _ ret0 K hsh0 h
      intro i t t' hP h
      refine nest2_shaped 0 _ (fun _ => 0) (fun _ => r.ncolumns) _ ?_ t t' hP h
      intro j k u u' hu hb
      split at hb
      · cases hb
      · split at hb
        · cases hb
        · split at hb
          · cases hb
          · exact Matrix.write_shaped hb hu

theorem map_invariant (f : α → α) (M M' : Matrix α) (hM : M.Invariant)
    (h : forLoop 0 M.nrows (fun i m =>
        forLoop 0 m.ncolumns (fun j m =>
          match m.read i j with
          | .error e => .error e
          | .ok x => m.write i j (f x)) m) M = .ok M') :
    M'.Invariant ∧ M'.nrows = M.nrows ∧ M'.ncolumns = M.ncolumns := by
  obtain ⟨h1, h2, h3, h4⟩ := hM
  have hsh : M'.Shaped M.nrows M.ncolumns := by
    refine nest2_shaped 0 _ (fun _ => 0) (fun t => t.ncolumns) _ ?_ M M' ⟨rfl, rfl, h3, h4⟩ h
    intro i j u u' hu hb
    split at hb
    · cases hb
    · exact Matrix.write_shaped hb hu
  exact ⟨Matrix.invariant_of_shaped hsh h1 h2, hsh.1, hsh.2.1⟩

/-- C15: the invariant of the data model (`nrows > 0`, `ncolumns > 0`,
exactly `nrows` rows, every row exactly `ncolumns` elements long) holds for
every matrix returned by the constructor, `Kronecker`, `Hadamard`, `HoriCat`,
`Mul`, `Add`, `Sub` and `Transpose`, and `MulByScalar` and `Invert` keep it,
together with the two counters.  Every returned matrix comes from the
constructor and is changed by in-bounds writes only, so for the eight
constructing operations the invariant of the inputs is not even needed. -/
theorem invariant_kept [Field α] :
    (∀ (rows columns : Nat) (z : Matrix α), Matrix.new rows columns = .ok z → z.Invariant) ∧
    (∀ l r K : Matrix α, Kronecker l r = .ok K → K.Invariant) ∧
    (∀ l r K : Matrix α, Hadamard l r = .ok K → K.Invariant) ∧
    (∀ l r K : Matrix α, HoriCat l r = .ok K → K.Invariant) ∧
    (∀ l r K : Matrix α, Mul l r = .ok K → K.Invariant) ∧
    (∀ l r K : Matrix α, Add l r = .ok K → K.Invariant) ∧
    (∀ l r K : Matrix α, Sub l r = .ok K → K.Invariant) ∧
    (∀ m K : Matrix α, Transpose m = .ok K → K.Invariant) ∧
    (∀ (s : α) (M M' : Matrix α), M.Invariant → MulByScalar s M = .ok M' →
      M'.Invariant ∧ M'.nrows = M.nrows ∧ M'.ncolumns = M.ncolumns) ∧
    (∀ (k : α) (M M' : Matrix α), M.Invariant → Invert k M = .ok M' →
      M'.Invariant ∧ M'.nrows = M.nrows ∧ M'.ncolumns = M.ncolumns) := by
  refine ⟨?_, Kronecker_invariant, Hadamard_invariant, HoriCat_invariant, Mul_invariant,
    Add_invariant, Sub_invariant, Transpose_invariant, ?_, ?_⟩
  · intro rows columns z h
    obtain ⟨hsh, hR, hC⟩ := Matrix.new_shaped h
    exact Matrix.invariant_of_shaped hsh hR hC
  · intro s M M' hM h
    unfold MulByScalar at h
    split_ifs at h
    exact map_invariant (fun x => x * s) M M' hM h
  · intro k M M' hM h
    unfold Invert at h
    split_ifs at h
    exact map_invariant (fun x => k / x) M M' hM h

/-- C15 at the matrices of the concrete scenario, over the rationals. -/
theorem invariant_kept_witness :
    exQ.Invariant ∧
      Mul exQ exQ = .ok ⟨2, 2, [[7, 10], [15, 22]]⟩ ∧
      (⟨2, 2, [[7, 10], [15, 22]]⟩ : Matrix Rat).Invariant ∧
      Invert 1 exQ = .ok ⟨2, 2, [[1, 1 / 2], [1 / 3, 1 / 4]]⟩ ∧
      (⟨2, 2, [[1, 1 / 2], [1 / 3, 1 / 4]]⟩ : Matrix Rat).Invariant ∧
      (⟨2, 2, [[1, 1 / 2], [1 / 3, 1 / 4]]⟩ : Matrix Rat).nrows = exQ.nrows ∧
      (⟨2, 2, [[1, 1 / 2], [1 / 3, 1 / 4]]⟩ : Matrix Rat).ncolumns = exQ.ncolumns :=
  have hmul : Mul exQ exQ = .ok ⟨2, 2, [[7, 10], [15, 22]]⟩ := by
    simp [Mul, forLoop, loop, Matrix.read, Matrix.write, Matrix.get?, Matrix.new, exQ]
    norm_num
  have hinv : Invert 1 exQ = .ok ⟨2, 2, [[1, 1 / 2], [1 / 3, 1 / 4]]⟩ := by
    simp [Invert, forLoop, loop, Matrix.read, Matrix.write, Matrix.get?, exQ]
  have hI : exQ.Invariant := by decide
  ⟨hI, hmul, invariant_kept.2.2.2.2.1 exQ exQ _ hmul, hinv,
    (invariant_kept.2.2.2.2.2.2.2.2.2 1 exQ _ hI hinv).1,
    (invariant_kept.2.2.2.2.2.2.2.2.2 1 exQ _ hI hinv).2.1,
    (invariant_kept.2.2.2.2.2.2.2.2.2 1 exQ _ hI hinv).2.2⟩

/-! ## The tests of `Kronecker` -/

theorem replicate_WF (R C : Nat) (hR : 0 < R) (hR' : R < 2 ^ 32) (hC : 0 < C)
    (hC' : C < 2 ^ 32) :
    (⟨R, C, List.replicate R (List.replicate C 0)⟩ : Matrix Int).WF := by
  refine ⟨hR, hR', hC, hC', rfl, rfl, ?_, ?_⟩
  · exact List.length_replicate _ _
  · intro r hr
    rw [List.eq_of_mem_replicate hr]
    exact List.length_replicate _ _

/-- C16: the code at `left = right =` a `65536 × 65536` matrix.  All four
dimensions are non-zero, their product times the element size is `2^67`, the
64-bit `limit_test` wraps to `0`, and the first test, which the source
describes as the test that the dimensions are greater than zero, rejects the
call. -/
theorem Kronecker_zero_test_wraps :
    wide64k.WF ∧ 0 < wide64k.nrows ∧ 0 < wide64k.ncolumns ∧
      wide64k.nrows * wide64k.nrows * wide64k.ncolumns * wide64k.ncolumns * 8 = 2 ^ 67 ∧
      limit_test wide64k wide64k = 0 ∧
      Kronecker wide64k wide64k = .error .InvalidDimension :=
  ⟨replicate_WF 65536 65536 (by decide) (by decide) (by decide) (by decide), by decide,
    by decide, by decide, by decide, by decide⟩

/-- C17: the constant of the second test, `0x3FFFFFFF00000001`, is
`2^62 - 2^32 + 1` and not `(2^32 - 1)^2 = 0xFFFFFFFE00000001`, the value the
source's comment gives for it.  At `left = right =` a `30000 × 30000` matrix
`limit_test` is `6480000000000000000`, which does not wrap and is below
`(2^32 - 1)^2`, and the call is rejected by the second test. -/
theorem Kronecker_limit_constant :
    (0x3FFFFFFF00000001 : Nat) ≠ (2 ^ 32 - 1) ^ 2 ∧
      (0x3FFFFFFF00000001 : Nat) = 2 ^ 62 - 2 ^ 32 + 1 ∧
      ((2 : Nat) ^ 32 - 1) ^ 2 = 0xFFFFFFFE00000001 ∧
      mid30k.WF ∧
      mid30k.nrows * mid30k.nrows * mid30k.ncolumns * mid30k.ncolumns * 8
        = 6480000000000000000 ∧
      limit_test mid30k mid30k = 6480000000000000000 ∧
      limit_test mid30k mid30k ≤ (2 ^ 32 - 1) ^ 2 ∧
      mul64 mid30k.nrows mid30k.nrows ≤ U32MAX ∧
      Kronecker mid30k mid30k = .error .Overflow :=
  ⟨by decide, by decide, by decide,
    replicate_WF 30000 30000 (by decide) (by decide) (by decide) (by decide), by decide,
    by decide, by decide, by decide, by decide⟩

/-- C18: the code at `left = [[1], [2]]`, `right = [[0]]`.  The operands pass
the three tests, the result has `2 * 1 = 2` rows, and the step `m = 1, p = 0`
writes row `m*left.nrows+p = 2`, outside the result. -/
theorem Kronecker_write_outside :
    exCol2.WF ∧ oneCell.WF ∧ KroneckerPasses exCol2 oneCell ∧
      (1 < exCol2.nrows ∧ 0 < oneCell.nrows) ∧
      ¬ (1 * exCol2.nrows + 0 < exCol2.nrows * oneCell.nrows) ∧
      Kronecker exCol2 oneCell = .error .OutOfBounds := by
  decide

/-! ## The Kronecker product of operands of equal shape -/

/-- For operands whose block steps agree, every cell of the result is the
target of exactly one step `(m, n, p, q)` of the four loops. -/
theorem kron_target_unique {lr lc rr rc : Nat} (hrow : lr = rr ∨ lr = 1)
    (hcol : lc = rc ∨ lc = 1) (hR : lr * rr < 2 ^ 32) (hC : lc * rc < 2 ^ 32)
    {a b : Nat} (ha : a < lr * rr) (hb : b < lc * rc) :
    ∃! t : Nat × Nat × Nat × Nat, t.1 < lr ∧ t.2.1 < lc ∧ t.2.2.1 < rr ∧ t.2.2.2 < rc ∧
      add32 (mul32 t.1 lr) t.2.2.1 = a ∧ add32 (mul32 t.2.1 lc) t.2.2.2 = b := by
  have hrr : 0 < rr := by
    rcases Nat.eq_zero_or_pos rr with h | h
    · rw [h] at ha; simp at ha
    · exact h
  have hrc : 0 < rc := by
    rcases Nat.eq_zero_or_pos rc with h | h
    · rw [h] at hb; simp at hb
    · exact h
  have hm : a / rr < lr := Nat.div_lt_of_lt_mul (by rw [Nat.mul_comm]; exact ha)
  have hn : b / rc < lc := Nat.div_lt_of_lt_mul (by rw [Nat.mul_comm]; exact hb)
  have hp : a % rr < rr := Nat.mod_lt a hrr
  have hq : b % rc < rc := Nat.mod_lt b hrc
  refine ⟨(a / rr, b / rc, a % rr, b % rc), ⟨hm, hn, hp, hq, ?_, ?_⟩, ?_⟩
  · show add32 (mul32 (a / rr) lr) (a % rr) = a
    rw [kron_index hrow hm hp hR]
    exact (block_eq rfl rfl).symm
  · show add32 (mul32 (b / rc) lc) (b % rc) = b
    rw [kron_index hcol hn hq hC]
    exact (block_eq rfl rfl).symm
  · rintro ⟨m, n, p, q⟩ ⟨hm', hn', hp', hq', ea, eb⟩
    simp only at hm' hn' hp' hq' ea eb
    rw [kron_index hrow hm' hp' hR] at ea
    rw [kron_index hcol hn' hq' hC] at eb
    subst ea eb
    rw [block_div hp', block_div hq', block_mod hp', block_mod hq']

/-- C19: for operands `L`, `R` of equal shape that pass the three tests,
`Kronecker(L, R)` returns a matrix of `L.nrows * R.nrows` rows and
`L.ncolumns * R.ncolumns` columns; every index the four loops compute is
inside it; every cell of it is the target of exactly one step `(m, n, p, q)`
of the loops, so it is written exactly once; and it is the Kronecker product:
the cell at row `m*R.nrows+p` and column `n*R.ncolumns+q` holds
`L[m][n] * R[p][q]`. -/
theorem Kronecker_equal_shapes [MulZeroClass α] (L R : Matrix α) (hL : L.WF) (hR : R.WF)
    (hrows : L.nrows = R.nrows) (hcols : L.ncolumns = R.ncolumns)
    (hpass : KroneckerPasses L R) :
    ∃ K, Kronecker L R = .ok K ∧
      K.Shaped (L.nrows * R.nrows) (L.ncolumns * R.ncolumns) ∧
      (∀ m n p q, m < L.nrows → n < L.ncolumns → p < R.nrows → q < R.ncolumns →
        add32 (mul32 m L.nrows) p < K.nrows ∧ add32 (mul32 n L.ncolumns) q < K.ncolumns) ∧
      (∀ a b, a < K.nrows → b < K.ncolumns →
        ∃! t : Nat × Nat × Nat × Nat, t.1 < L.nrows ∧ t.2.1 < L.ncolumns ∧
          t.2.2.1 < R.nrows ∧ t.2.2.2 < R.ncolumns ∧
          add32 (mul32 t.1 L.nrows) t.2.2.1 = a ∧ add32 (mul32 t.2.1 L.ncolumns) t.2.2.2 = b) ∧
      (∀ m n p q, m < L.nrows → n < L.ncolumns → p < R.nrows → q < R.ncolumns →
        K.get? (m * R.nrows + p) (n * R.ncolumns + q) = some (L.elem m n * R.elem p q)) := by
  have hRb : L.nrows * R.nrows < 2 ^ 32 := by
    have := hpass.2.2.1
    rw [mul64_eq (dims_mul_lt hL.2.1 hR.2.1)] at this
    unfold U32MAX at this
    omega
  have hCb : L.ncolumns * R.ncolumns < 2 ^ 32 := by
    have := hpass.2.2.2
    rw [mul64_eq (dims_mul_lt hL.2.2.2.1 hR.2.2.2.1)] at this
    unfold U32MAX at this
    omega
  obtain ⟨K, hK, hsh, hval⟩ := Kronecker_total L R hL hR hpass (Or.inl hrows) (Or.inl hcols)
  refine ⟨K, hK, hsh, ?_, ?_, hval⟩
  · intro m n p q hm hn hp hq
    rw [kron_index (Or.inl hrows) hm hp hRb, kron_index (Or.inl hcols) hn hq hCb, hsh.1,
      hsh.2.1]
    exact ⟨block_lt hm hp, block_lt hn hq⟩
  · intro a b ha hb
    rw [hsh.1] at ha
    rw [hsh.2.1] at hb
    exact kron_target_unique (Or.inl hrows) (Or.inl hcols) hRb hCb ha hb

/-- C19 at the call of the demonstration driver, `l = [[1,1],[2,2]]` and
`r = [[5,6],[5,6]]`. -/
theorem Kronecker_equal_shapes_witness :
    demoL.WF ∧ demoR.WF ∧ demoL.nrows = demoR.nrows ∧ demoL.ncolumns = demoR.ncolumns ∧
      KroneckerPasses demoL demoR ∧
      Kronecker demoL demoR
        = .ok ⟨4, 4, [[5, 6, 5, 6], [5, 6, 5, 6], [10, 12, 10, 12], [10, 12, 10, 12]]⟩ ∧
      ∃ K, Kronecker demoL demoR = .ok K ∧
        K.Shaped (demoL.nrows * demoR.nrows) (demoL.ncolumns * demoR.ncolumns) ∧
        (∀ m n p q, m < demoL.nrows → n < demoL.ncolumns → p < demoR.nrows →
          q < demoR.ncolumns →
          add32 (mul32 m demoL.nrows) p < K.nrows ∧
            add32 (mul32 n demoL.ncolumns) q < K.ncolumns) ∧
        (∀ a b, a < K.nrows → b < K.ncolumns →
          ∃! t : Nat × Nat × Nat × Nat, t.1 < demoL.nrows ∧ t.2.1 < demoL.ncolumns ∧
            t.2.2.1 < demoR.nrows ∧ t.2.2.2 < demoR.ncolumns ∧
            add32 (mul32 t.1 demoL.nrows) t.2.2.1 = a ∧
            add32 (mul32 t.2.1 demoL.ncolumns) t.2.2.2 = b) ∧
        (∀ m n p q, m < demoL.nrows → n < demoL.ncolumns → p < demoR.nrows →
          q < demoR.ncolumns →
          K.get? (m * demoR.nrows + p) (n * demoR.ncolumns + q)
            = some (demoL.elem m n * demoR.elem p q)) :=
  ⟨by decide, by decide, rfl, rfl, by decide, by decide,
    Kronecker_equal_shapes demoL demoR (by decide) (by decide) rfl rfl (by decide)⟩

/-! ## The transpose of a product -/

/-- C20: for matrices `A`, `B` with `A.ncolumns = B.nrows`, the four calls
`Mul(A, B)`, `Transpose` of its result, `Transpose(B)`, `Transpose(A)` and
`Mul` of these two all return, and `Transpose(Mul(A, B))` and
`Mul(Transpose(B), Transpose(A))` are the same matrix: same counters, same
storage, element for element (elements in a commutative semiring, so that
arithmetic is exact). -/
theorem Transpose_Mul [CommSemiring α] (A B : Matrix α) (hA : A.WF) (hB : B.WF)
    (hcommon : A.ncolumns = B.nrows) :
    ∃ P T TB TA, Mul A B = .ok P ∧ Transpose P = .ok T ∧ Transpose B = .ok TB ∧
      Transpose A = .ok TA ∧ Mul TB TA = .ok T ∧ T.Shaped B.ncolumns A.nrows := by
  obtain ⟨P, hP, hPsh, hPval⟩ := Mul_spec A B hA hB hcommon
  have hPwf : P.WF := Matrix.WF_of_shaped hPsh hA.1 hA.2.1 hB.2.2.1 hB.2.2.2.1
  obtain ⟨T, hT, hTsh, hTval⟩ := Transpose_spec P hPwf
  rw [hPsh.1, hPsh.2.1] at hTsh hTval
  obtain ⟨TB, hTB, hTBsh, hTBval⟩ := Transpose_spec B hB
  obtain ⟨TA, hTA, hTAsh, hTAval⟩ := Transpose_spec A hA
  have hTBwf : TB.WF := Matrix.WF_of_shaped hTBsh hB.2.2.1 hB.2.2.2.1 hB.1 hB.2.1
  have hTAwf : TA.WF := Matrix.WF_of_shaped hTAsh hA.2.2.1 hA.2.2.2.1 hA.1 hA.2.1
  obtain ⟨Q, hQ, hQsh, hQval⟩ := Mul_spec TB TA hTBwf hTAwf
    (by rw [hTBsh.2.1, hTAsh.1, hcommon])
  rw [hTBsh.1, hTAsh.2.1] at hQsh hQval
  rw [hTBsh.2.1] at hQval
  have hQT : Q = T := by
    apply Matrix.ext_of_shaped hQsh hTsh
    intro k j hk hj
    rw [hQval k j hk hj, hTval k j hk hj, Matrix.elem_of_get? (hPval j k hj hk)]
    congr 1
    unfold dot
    rw [hcommon]
    apply Finset.sum_congr rfl
    intro i hi
    have hi' : i < B.nrows := Finset.mem_range.mp hi
    rw [Matrix.elem_of_get? (hTBval k i hk hi'),
      Matrix.elem_of_get? (hTAval i j (by omega) hj), mul_comm]
  exact ⟨P, T, TB, TA, hP, hT, hTB, hTA, hQT ▸ hQ, hTsh⟩

/-- C20 at `A = [[3, 4, 5]]`, `B = [[3], [4], [5]]` and at the matrices of
the concrete scenario. -/
theorem Transpose_Mul_witness :
    exRow3.WF ∧ exCol3.WF ∧ exRow3.ncolumns = exCol3.nrows ∧
      (∃ P T TB TA, Mul exRow3 exCol3 = .ok P ∧ Transpose P = .ok T ∧
        Transpose exCol3 = .ok TB ∧ Transpose exRow3 = .ok TA ∧ Mul TB TA = .ok T ∧
        T.Shaped exCol3.ncolumns exRow3.nrows) ∧
      (∃ P T TB TA, Mul exA exB = .ok P ∧ Transpose P = .ok T ∧
        Transpose exB = .ok TB ∧ Transpose exA = .ok TA ∧ Mul TB TA = .ok T ∧
        T.Shaped exB.ncolumns exA.nrows) :=
  ⟨by decide, by decide, rfl, Transpose_Mul exRow3 exCol3 (by decide) (by decide) rfl,
    Transpose_Mul exA exB (by decide) (by decide) rfl⟩

end MM
